import Mathlib

/-!
Verification of the zoo-record reconciliation pipeline
(`scripts/uk-zoo-scraper/utils/dedupe.ts`).

Strings are embedded as `List Char`; every JavaScript string operation used by
the source (`toLowerCase`, the anchored regex replaces, `split(' ')[0]`,
`includes`, `Map` with insertion order, `Array.prototype.sort`) is translated
into an executable Lean function on `List Char`.  Numbers that the source only
ever zero-tests and copies (`latitude`/`longitude`) are embedded as
`Option Int`; strings in optional fields as `Option (List Char)`, with
JavaScript truthiness (`undefined`/empty string/zero are falsy) made explicit.
-/

namespace ZooDedupe

/-- Strings are modelled as lists of characters. -/
abbrev Str := List Char

/-- The character class matched by JavaScript's regex `\s` (and trimmed by
`String.prototype.trim`): ASCII whitespace, NBSP, the Unicode space
separators, line/paragraph separators and the BOM. -/
def jsWhitespace (c : Char) : Bool :=
  c = ' ' || c = '\t' || c = '\n' || c = '\r' || c.toNat = 11 || c.toNat = 12 ||
  c.toNat = 0xa0 || c.toNat = 0x1680 || (0x2000 ≤ c.toNat && c.toNat ≤ 0x200a) ||
  c.toNat = 0x2028 || c.toNat = 0x2029 || c.toNat = 0x202f || c.toNat = 0x205f ||
  c.toNat = 0x3000 || c.toNat = 0xfeff

/-- Drop trailing whitespace. -/
def dropTrailWs (s : Str) : Str := (s.reverse.dropWhile jsWhitespace).reverse

/-- Drop leading whitespace. -/
def dropLeadWs (s : Str) : Str := s.dropWhile jsWhitespace

/-- Worker for `collapseWs`; the flag records whether we are inside a
whitespace run whose replacement space has already been emitted. -/
def collapseGo : Bool → Str → Str
  | _, [] => []
  | inWs, c :: cs =>
    if jsWhitespace c then
      if inWs then collapseGo true cs else ' ' :: collapseGo true cs
    else c :: collapseGo false cs

/-- `.replace(/\s+/g, ' ')`: every maximal whitespace run becomes one space. -/
def collapseWs (s : Str) : Str := collapseGo false s

/-- `.replace(/['']/g, "'")` — in the source file the character class consists
of the ASCII apostrophe written twice, so the replacement maps `'` to `'`. -/
def unifyQuotes (s : Str) : Str := s.map (fun c => if c = '\'' then '\'' else c)

/-- Canonical spacing: all whitespace characters are single spaces and no two
spaces are adjacent (the flag records whether the previous character was a
space).  Strings in this form are fixed points of `collapseWs`. -/
def spacedOK : Bool → Str → Bool
  | _, [] => true
  | afterSp, c :: cs =>
    if jsWhitespace c then c = ' ' && !afterSp && spacedOK true cs
    else spacedOK false cs

/-- If `w` (plus any preceding whitespace) is a suffix of `s`, strip it;
otherwise `none`.  This is one word of an anchored `/\s*w$/` match. -/
def stripTok (w : Str) (s : Str) : Option Str :=
  if w.isSuffixOf s then some (dropTrailWs (s.take (s.length - w.length))) else none

/-- `.replace(/\s*w$/i, '')` for a single literal word `w`
(the input is already lower-cased). -/
def stripEnd1 (w : Str) (s : Str) : Str := (stripTok w s).getD s

/-- `.replace(/\s*w1\s*w2$/i, '')` for two literal words. -/
def stripEnd2 (w1 w2 : Str) (s : Str) : Str :=
  match stripTok w2 s with
  | none => s
  | some t =>
    match stripTok w1 t with
    | none => s
    | some u => u

/-- Three-word anchored suffix match, used for `/\s*sea\s*life\s*centre?$/`. -/
def stripEnd3 (w1 w2 w3 : Str) (s : Str) : Option Str :=
  match stripTok w3 s with
  | none => none
  | some t =>
    match stripTok w2 t with
    | none => none
    | some u => stripTok w1 u

/-- `.replace(/\s*sea\s*life\s*centre?$/i, '')`: the greedy optional `e?` makes
the engine first try the literal `centre`, and `centr` succeeds only when the
string ends right after the `r`. -/
def stripSeaLife (s : Str) : Str :=
  match stripEnd3 "sea".toList "life".toList "centre".toList s with
  | some t => t
  | none =>
    match stripEnd3 "sea".toList "life".toList "centr".toList s with
    | some t => t
    | none => s

/-- Index of the first occurrence of `w` as a contiguous substring. -/
def findSub (w : Str) : Str → Option Nat
  | [] => none
  | c :: cs => if w.isPrefixOf (c :: cs) then some 0 else (findSub w cs).map (· + 1)

/-- `.replace(/\s*w\s*/i, ' ')` (no `g` flag): the leftmost occurrence of `w`,
together with the whitespace around it, is replaced by a single space.  Note
the regex has no word-boundary anchors, so `w` is found even inside a larger
word. -/
def replaceWordOnce (w : Str) (s : Str) : Str :=
  match findSub w s with
  | none => s
  | some i => dropTrailWs (s.take i) ++ ' ' :: dropLeadWs (s.drop (i + w.length))

/-- `.replace(/^w\s+/i, '')`: strip a leading word `w` only when followed by at
least one whitespace character, consuming the whole whitespace run. -/
def stripLead (w : Str) (s : Str) : Str :=
  if w.isPrefixOf s then
    match s.drop w.length with
    | [] => s
    | c :: rest => if jsWhitespace c then List.dropWhile jsWhitespace rest else s
  else s

/-- `.trim()`. -/
def trimWs (s : Str) : Str := dropTrailWs (dropLeadWs s)

/-- `normalizeZooName` from `dedupe.ts`: lower-case (ASCII case model of
`toLowerCase`), the no-op apostrophe unification, whitespace collapse, the
anchored suffix strips in source order, the unanchored single-shot `house` and
`wild` replaces, the anchored prefix strips, and a final collapse and trim. -/
def normalizeZooName (s : Str) : Str :=
  trimWs (collapseWs
    (stripLead "zsl".toList
      (stripLead "the".toList
        (replaceWordOnce "wild".toList
          (replaceWordOnce "house".toList
            (stripSeaLife
              (stripEnd1 "aquarium".toList
                (stripEnd2 "animal".toList "park".toList
                  (stripEnd2 "wildlife".toList "park".toList
                    (stripEnd2 "safari".toList "park".toList
                      (stripEnd1 "zoo".toList
                        (collapseWs (unifyQuotes (s.map Char.toLower))))))))))))))

/-- One inner cell update of the `levenshteinDistance` dynamic-programming
loop: `prev` is the previous matrix row aligned with the remaining characters
of `a`, `left` the cell just written in the current row. -/
def levRow (bc : Char) : Str → List Nat → Nat → List Nat
  | ac :: arest, pd :: pu :: prest, left =>
    let v := if bc = ac then pd else Nat.min (pd + 1) (Nat.min (left + 1) (pu + 1))
    v :: levRow bc arest (pu :: prest) v
  | _, _, _ => []

/-- The outer loop of `levenshteinDistance`: one row per character of `b`,
each row starting with its row index. -/
def levLoopGo (a : Str) : Str → List Nat → Nat → List Nat
  | [], row, _ => row
  | bc :: brest, row, i => levLoopGo a brest (i :: levRow bc a row i) (i + 1)

/-- `levenshteinDistance` from `dedupe.ts`: the full-matrix DP, returning
`matrix[b.length][a.length]`. -/
def levenshteinDistance (a b : Str) : Nat :=
  (levLoopGo a b (List.range (a.length + 1)) 1).getLastD 0

/-- Helper realising the textbook recursion `levRec (x :: xs) ys` for a fixed
head `x`, with `f = levRec xs` already available; structured this way the
definition is structurally recursive and computes by kernel reduction. -/
def levRecAux (x : Char) (xs : Str) (f : Str → Nat) : Str → Nat
  | [] => xs.length + 1
  | y :: ys =>
    if x = y then f ys
    else 1 + Nat.min (f ys) (Nat.min (levRecAux x xs f ys) (f (y :: ys)))

/-- The textbook Levenshtein distance: minimal number of single-character
insertions, deletions and substitutions, by its standard recursion
(`levRec [] ys = ys.length`, `levRec xs [] = xs.length`, and
`levRec (x::xs) (y::ys) = if x = y then levRec xs ys else
1 + min (levRec xs ys) (min (levRec (x::xs) ys) (levRec xs (y::ys)))`,
proved below as `levRec_nil_left`, `levRec_nil_right`, `levRec_cons_cons`). -/
def levRec : Str → Str → Nat
  | [], ys => ys.length
  | x :: xs, ys => levRecAux x xs (levRec xs) ys

/-- `key.split(' ')[0]`: the first chunk when splitting on the literal space
character (an empty string yields the empty chunk). -/
def firstWordTok (s : Str) : Str := s.takeWhile (fun c => !(c = ' '))

/-- JavaScript `longer.includes(shorter)`: substring containment. -/
def containsSub (hay needle : Str) : Bool := decide (needle <:+: hay)

/-- The per-key test of `findSimilarZoo`: the four checks of the loop body
(exact equality, guarded containment, bounded edit distance, first-word
match); the loop returns `existing` as soon as any of them fires. -/
def zooMatch (key existing : Str) : Bool :=
  (key == existing) ||
  ((let shorter := if key.length < existing.length then key else existing
    let longer := if key.length < existing.length then existing else key
    containsSub longer shorter && decide (8 ≤ shorter.length))) ||
  (decide (key.length < 15) && decide (existing.length < 15) &&
    decide (levenshteinDistance key existing ≤ 2)) ||
  (firstWordTok key == firstWordTok existing && decide (4 < (firstWordTok key).length))

/-- `findSimilarZoo` from `dedupe.ts`: first existing key (in insertion order)
passing any of the four checks, else `null`. -/
def findSimilarZoo (key : Str) (existingKeys : List Str) : Option Str :=
  existingKeys.find? (fun existing => zooMatch key existing)

/-- The `ZooSource` union type `'wikipedia' | 'biaza' | 'google'`. -/
inductive ZooSource
  | wikipedia
  | biaza
  | google
deriving DecidableEq, Repr

/-- The `RawZoo` input record (`types.ts`).  Optional fields are `Option`;
coordinates are only zero-tested and copied by the code under verification,
so they are embedded as `Option Int`. -/
structure RawZoo where
  name : Str
  city : Option Str := none
  county : Option Str := none
  website : Option Str := none
  source : ZooSource
  wikiUrl : Option Str := none
  latitude : Option Int := none
  longitude : Option Int := none
deriving DecidableEq, Repr

/-- The canonical `Zoo` entity (`types.ts`). -/
structure Zoo where
  name : Str
  city : Option Str := none
  county : Option Str := none
  country : Str
  website : Option Str := none
  latitude : Option Int := none
  longitude : Option Int := none
  sources : List ZooSource
  wikiUrl : Option Str := none
deriving DecidableEq, Repr

/-- JavaScript truthiness of an optional string: `undefined` and `""` are
falsy. -/
def strTruthy : Option Str → Bool
  | none => false
  | some s => !s.isEmpty

/-- JavaScript truthiness of an optional number: `undefined` and `0` are
falsy. -/
def numTruthy : Option Int → Bool
  | none => false
  | some n => !(n == 0)

/-- `mergeZoo` from `dedupe.ts`, as a function returning the mutated entity:
add the source tag if new, fill each falsy optional field from the raw record
when the raw value is truthy, and take the raw name when strictly longer. -/
def mergeZoo (existing : Zoo) (raw : RawZoo) : Zoo :=
  { existing with
    sources :=
      if existing.sources.contains raw.source then existing.sources
      else existing.sources ++ [raw.source]
    city := if !strTruthy existing.city && strTruthy raw.city then raw.city else existing.city
    county := if !strTruthy existing.county && strTruthy raw.county then raw.county else existing.county
    website := if !strTruthy existing.website && strTruthy raw.website then raw.website else existing.website
    wikiUrl := if !strTruthy existing.wikiUrl && strTruthy raw.wikiUrl then raw.wikiUrl else existing.wikiUrl
    latitude := if !numTruthy existing.latitude && numTruthy raw.latitude then raw.latitude else existing.latitude
    longitude := if !numTruthy existing.longitude && numTruthy raw.longitude then raw.longitude else existing.longitude
    name := if raw.name.length > existing.name.length then raw.name else existing.name }

/-- The engine's `Map<string, Zoo>` with its insertion order, as an
association list. -/
abbrev ZooMap := List (Str × Zoo)

/-- `zooMap.has(key)`. -/
def mapHasKey (m : ZooMap) (k : Str) : Bool := m.any (fun p => p.1 == k)

/-- `Array.from(zooMap.keys())`, in insertion order. -/
def mapKeys (m : ZooMap) : List Str := m.map Prod.fst

/-- In-place `mergeZoo(zooMap.get(k), raw)`: update the entity stored at `k`,
keeping the insertion order. -/
def mapMergeAt (m : ZooMap) (k : Str) (raw : RawZoo) : ZooMap :=
  m.map (fun p => if p.1 == k then (p.1, mergeZoo p.2 raw) else p)

/-- The fresh entity inserted for an unmatched record. -/
def newZoo (raw : RawZoo) : Zoo :=
  { name := raw.name
    city := raw.city
    county := raw.county
    country := "United Kingdom".toList
    website := raw.website
    sources := [raw.source]
    wikiUrl := raw.wikiUrl
    latitude := raw.latitude
    longitude := raw.longitude }

/-- One iteration of the `dedupeZoos` loop for a single raw record. -/
def dedupeStep (m : ZooMap) (raw : RawZoo) : ZooMap :=
  let key := normalizeZooName raw.name
  if mapHasKey m key then mapMergeAt m key raw
  else
    match findSimilarZoo key (mapKeys m) with
    | some simKey => mapMergeAt m simKey raw
    | none => m ++ [(key, newZoo raw)]

/-- The canonical map built by `dedupeZoos` (the `verbose` logging is pure
I/O and does not influence the result). -/
def dedupeMap (rawZoos : List RawZoo) : ZooMap := rawZoos.foldl dedupeStep []

/-- `dedupeZoos` from `dedupe.ts`: `Array.from(zooMap.values())`. -/
def dedupeZoos (rawZoos : List RawZoo) : List Zoo := (dedupeMap rawZoos).map Prod.snd

/-- Instrumentation: whether the engine merges this record into an existing
entity (exact key hit or similarity match) rather than inserting a new one. -/
def isMergeStep (m : ZooMap) (raw : RawZoo) : Bool :=
  let key := normalizeZooName raw.name
  mapHasKey m key || (findSimilarZoo key (mapKeys m)).isSome

/-- Instrumentation: how many records of the list take the merge path when the
engine starts from map `m`. -/
def mergeCountFrom : ZooMap → List RawZoo → Nat
  | _, [] => 0
  | m, r :: rs => (if isMergeStep m r then 1 else 0) + mergeCountFrom (dedupeStep m r) rs

/-- Number of records of a run that merge into an existing entity. -/
def dedupeMerges (rawZoos : List RawZoo) : Nat := mergeCountFrom [] rawZoos

/-- Instrumentation: the key of the entity a record is folded into — the exact
key on a map hit, the similar key on a similarity match, and its own
normalized key when a fresh entity is inserted. -/
def destKey (m : ZooMap) (raw : RawZoo) : Str :=
  let key := normalizeZooName raw.name
  if mapHasKey m key then key
  else
    match findSimilarZoo key (mapKeys m) with
    | some simKey => simKey
    | none => key

/-- Lexicographic comparison of lists over a linear order. -/
def lexCmp [LinearOrder α] : List α → List α → Ordering
  | [], [] => Ordering.eq
  | [], _ :: _ => Ordering.lt
  | _ :: _, [] => Ordering.gt
  | c :: cs, d :: ds =>
    match compare c d with
    | Ordering.eq => lexCmp cs ds
    | o => o

/-- Case rank of a character for the collation tie-break (lowercase sorts
before uppercase in the default locale). -/
def caseRank (c : Char) : Nat := if c.isUpper then 1 else 0

/-- Modelled JS builtin `String.prototype.localeCompare` under the default
locale, restricted to what the comparator needs: the primary comparison is
case-insensitive (code points after ASCII lower-casing), and strings equal at
the primary level are ordered lowercase-first by case. -/
def localeCompare (a b : Str) : Int :=
  match lexCmp (a.map Char.toLower) (b.map Char.toLower) with
  | Ordering.lt => -1
  | Ordering.gt => 1
  | Ordering.eq =>
    match lexCmp (a.map caseRank) (b.map caseRank) with
    | Ordering.lt => -1
    | Ordering.gt => 1
    | Ordering.eq => 0

/-- The comparator passed to `sort` in `sortZoosByQuality`. -/
def cmpZoo (a b : Zoo) : Int :=
  if b.sources.length ≠ a.sources.length then
    (b.sources.length : Int) - (a.sources.length : Int)
  else if strTruthy a.website && !strTruthy b.website then -1
  else if !strTruthy a.website && strTruthy b.website then 1
  else localeCompare a.name b.name

/-- Non-strict order induced by the comparator. -/
def zooLe (a b : Zoo) : Bool := decide (cmpZoo a b ≤ 0)

/-- `sortZoosByQuality` from `dedupe.ts`: `[...zoos].sort(comparator)` —
ECMAScript `Array.prototype.sort` is a stable sort by the comparator, embedded
as a stable merge sort on the comparator's non-strict order. -/
def sortZoosByQuality (zoos : List Zoo) : List Zoo := zoos.mergeSort zooLe

/-! ### Specification-side definitions and concrete records used by the
claims -/

/-- Specification reading of the four matching rules, with the bounded
edit-distance rule using the textbook Levenshtein metric `levRec` and the
first-word rule comparing the chunks before the first literal space. -/
def specZooMatch (key existing : Str) : Prop :=
  key = existing ∨
  ((if key.length < existing.length then key else existing) <:+:
      (if key.length < existing.length then existing else key) ∧
    8 ≤ (if key.length < existing.length then key else existing).length) ∨
  (key.length < 15 ∧ existing.length < 15 ∧ levRec key existing ≤ 2) ∨
  (firstWordTok key = firstWordTok existing ∧ 4 < (firstWordTok key).length)

instance (key existing : Str) : Decidable (specZooMatch key existing) := by
  unfold specZooMatch; infer_instance

/-- Specification reading of `findSimilarZoo`: the first existing key, in
insertion order, satisfying any of the four rules. -/
def specFindSimilarZoo (key : Str) (existingKeys : List Str) : Option Str :=
  existingKeys.find? (fun existing => decide (specZooMatch key existing))

/-- The first whitespace-separated token of a key (the claim's reading of
rule 4, splitting on any whitespace rather than on the literal space). -/
def firstWordWs (s : Str) : Str := s.takeWhile (fun c => !jsWhitespace c)

/-- The claim's reading of the four matching rules, with rule 4 comparing the
first whitespace-separated tokens. -/
def specZooMatchWs (key existing : Str) : Prop :=
  key = existing ∨
  ((if key.length < existing.length then key else existing) <:+:
      (if key.length < existing.length then existing else key) ∧
    8 ≤ (if key.length < existing.length then key else existing).length) ∨
  (key.length < 15 ∧ existing.length < 15 ∧ levRec key existing ≤ 2) ∨
  (firstWordWs key = firstWordWs existing ∧ 4 < (firstWordWs key).length)

instance (key existing : Str) : Decidable (specZooMatchWs key existing) := by
  unfold specZooMatchWs; infer_instance

/-- The claim's reading of `findSimilarZoo`, built on `specZooMatchWs`. -/
def specFindSimilarZooWs (key : Str) (existingKeys : List Str) : Option Str :=
  existingKeys.find? (fun existing => decide (specZooMatchWs key existing))

/-- Candidate key containing a tab inside its first space-delimited chunk. -/
def keyTab : Str := "ab\tcde f".toList

/-- Existing key sharing that chunk. -/
def existingTab : Str := "ab\tcde ggg".toList

/-- Source tag `s` is recorded in some entity of the map. -/
def SrcIn (m : ZooMap) (s : ZooSource) : Prop := ∃ p ∈ m, s ∈ p.2.sources

/-- Invariant describing where records whose names normalize to the empty key
are routed: either the empty key is already present in the map (and `t` is
the empty key), or it is absent and `t` is the first key of length at most 2
(which the empty key similarity-matches). -/
def EmptyRouted (t : Str) (ks : List Str) : Prop :=
  ([] ∈ ks ∧ t = []) ∨
  ((¬ [] ∈ ks) ∧ ks.find? (fun k => decide (k.length ≤ 2)) = some t)

/-- Comparator equivalence: the three ranking criteria all tie. -/
def zooRankEq (a b : Zoo) : Bool := cmpZoo a b == 0

/-- The ranking order as the specification describes it: more sources first;
then entities with a truthy homepage before those without; then names in the
modelled default-locale order. -/
def specZooOrder (a b : Zoo) : Prop :=
  b.sources.length < a.sources.length ∨
  (a.sources.length = b.sources.length ∧
    ((strTruthy a.website = true ∧ strTruthy b.website = false) ∨
      (strTruthy a.website = strTruthy b.website ∧
        localeCompare a.name b.name ≤ 0)))

/-- Entity named `B`, used to exhibit the case tie-break of the ranker. -/
def zooUpperB : Zoo :=
  { name := "B".toList, country := "United Kingdom".toList,
    sources := [ZooSource.wikipedia] }

/-- Entity named `b`, otherwise identical to `zooUpperB`. -/
def zooLowerB : Zoo :=
  { name := "b".toList, country := "United Kingdom".toList,
    sources := [ZooSource.wikipedia] }

/-- The textbook Levenshtein distance read off along prefixes: distance
between the reversals.  (Proved below to agree with `levRec` itself; this is
the value the DP matrix rows carry.) -/
def levP (u v : Str) : Nat := levRec u.reverse v.reverse

/-- The DP row belonging to a processed prefix `p` of `b`: cell `j` holds the
distance between (`apre` followed by the first `j` characters of `arest`)
and `p`. -/
def rowSeg : Str → Str → Str → List Nat
  | apre, [], p => [levP apre p]
  | apre, c :: r, p => levP apre p :: rowSeg (apre ++ [c]) r p

/-- Raw records used in the concrete reconciliation scenarios. -/
def rawDrayton : RawZoo := { name := "Drayton Manor".toList, source := ZooSource.wikipedia }

def rawManorWildlife : RawZoo := { name := "Manor Wildlife Park".toList, source := ZooSource.biaza }

def rawZslLondon : RawZoo := { name := "ZSL London Zoo".toList, source := ZooSource.wikipedia }

def rawLondonZoo : RawZoo :=
  { name := "London Zoo".toList, website := some "https://zsl.org".toList,
    source := ZooSource.google }

def rawEmptyName : RawZoo := { name := [], source := ZooSource.wikipedia }

def rawOx : RawZoo := { name := "Ox".toList, source := ZooSource.wikipedia }

def rawZooOnly : RawZoo := { name := "Zoo".toList, source := ZooSource.biaza }

def rawAquariumOnly : RawZoo := { name := "Aquarium".toList, source := ZooSource.google }

/-- An entity with a populated city, for exercising the merge frame. -/
def zooCityPopulated : Zoo :=
  { name := "A".toList, city := some "x".toList, country := "United Kingdom".toList,
    sources := [ZooSource.wikipedia] }

/-- A raw record supplying a conflicting city value. -/
def rawCitySupplied : RawZoo :=
  { name := "AB".toList, city := some "y".toList, source := ZooSource.biaza }

/-! ### Counting: each record either merges or inserts -/

theorem length_mapMergeAt (m : ZooMap) (k : Str) (raw : RawZoo) :
    (mapMergeAt m k raw).length = m.length := by
  simp [mapMergeAt]

theorem length_dedupeStep (m : ZooMap) (raw : RawZoo) :
    (dedupeStep m raw).length =
      if isMergeStep m raw then m.length else m.length + 1 := by
  dsimp only [dedupeStep, isMergeStep]
  rcases h : mapHasKey m (normalizeZooName raw.name) with _ | _
  · rcases hf : findSimilarZoo (normalizeZooName raw.name) (mapKeys m) with _ | k
    · simp [h, hf]
    · simp [h, hf, length_mapMergeAt]
  · simp [h, length_mapMergeAt]

theorem length_foldl_dedupeStep (rs : List RawZoo) :
    ∀ m : ZooMap,
      (List.foldl dedupeStep m rs).length + mergeCountFrom m rs =
        m.length + rs.length := by
  induction rs with
  | nil => intro m; simp [mergeCountFrom]
  | cons r rs ih =>
    intro m
    have h1 := ih (dedupeStep m r)
    have h2 := length_dedupeStep m r
    simp only [List.foldl_cons, mergeCountFrom, List.length_cons]
    by_cases h : isMergeStep m r = true <;> simp only [h, if_true, if_false,
      Bool.false_eq_true, reduceIte] at h2 ⊢ <;> omega

/-! ### Every record's source tag survives into the output -/

theorem mem_sources_mergeZoo (z : Zoo) (raw : RawZoo) {s : ZooSource}
    (h : s ∈ z.sources) : s ∈ (mergeZoo z raw).sources := by
  simp only [mergeZoo]
  split
  · exact h
  · exact List.mem_append_left _ h

theorem own_source_mergeZoo (z : Zoo) (raw : RawZoo) :
    raw.source ∈ (mergeZoo z raw).sources := by
  simp only [mergeZoo]
  split
  · next h => exact List.mem_of_elem_eq_true h
  · exact List.mem_append_right _ (List.mem_singleton.mpr rfl)

theorem srcIn_mapMergeAt {m : ZooMap} {s : ZooSource} (k : Str) (raw : RawZoo)
    (h : SrcIn m s) : SrcIn (mapMergeAt m k raw) s := by
  obtain ⟨p, hp, hs⟩ := h
  by_cases hk : p.1 == k
  · exact ⟨(p.1, mergeZoo p.2 raw), List.mem_map.mpr ⟨p, hp, by simp [hk]⟩,
      mem_sources_mergeZoo _ _ hs⟩
  · exact ⟨p, List.mem_map.mpr ⟨p, hp, by simp [hk]⟩, hs⟩

theorem srcIn_dedupeStep {m : ZooMap} {s : ZooSource} (raw : RawZoo)
    (h : SrcIn m s) : SrcIn (dedupeStep m raw) s := by
  dsimp only [dedupeStep]
  obtain ⟨p, hp, hs⟩ := h
  split
  · exact srcIn_mapMergeAt _ _ ⟨p, hp, hs⟩
  · split
    · exact srcIn_mapMergeAt _ _ ⟨p, hp, hs⟩
    · exact ⟨p, List.mem_append_left _ hp, hs⟩

theorem srcIn_dedupeStep_self (m : ZooMap) (raw : RawZoo) :
    SrcIn (dedupeStep m raw) raw.source := by
  dsimp only [dedupeStep]
  split
  · next h =>
    obtain ⟨p, hp, hk⟩ := List.any_eq_true.mp h
    exact ⟨(p.1, mergeZoo p.2 raw), List.mem_map.mpr ⟨p, hp, by simp [hk]⟩,
      own_source_mergeZoo _ _⟩
  · split
    · next k hf =>
      have hk : k ∈ mapKeys m := List.mem_of_find?_eq_some hf
      obtain ⟨p, hp, hpk⟩ := List.mem_map.mp hk
      refine ⟨(p.1, mergeZoo p.2 raw), List.mem_map.mpr ⟨p, hp, ?_⟩,
        own_source_mergeZoo _ _⟩
      simp [hpk]
    · exact ⟨(normalizeZooName raw.name, newZoo raw),
        List.mem_append_right _ (by simp), by simp [newZoo]⟩

theorem srcIn_foldl_dedupeStep {s : ZooSource} (rs : List RawZoo) :
    ∀ m : ZooMap, SrcIn m s → SrcIn (List.foldl dedupeStep m rs) s := by
  induction rs with
  | nil => intro m h; simpa using h
  | cons r rs ih => intro m h; exact ih _ (srcIn_dedupeStep r h)

theorem source_survives_dedupe {l : List RawZoo} {r : RawZoo} (hr : r ∈ l) :
    ∃ z ∈ dedupeZoos l, r.source ∈ z.sources := by
  obtain ⟨l₁, l₂, rfl⟩ := List.append_of_mem hr
  have : SrcIn (dedupeMap (l₁ ++ r :: l₂)) r.source := by
    unfold dedupeMap
    rw [List.foldl_append, List.foldl_cons]
    exact srcIn_foldl_dedupeStep l₂ _ (srcIn_dedupeStep_self _ r)
  obtain ⟨p, hp, hs⟩ := this
  exact ⟨p.2, List.mem_map.mpr ⟨p, hp, rfl⟩, hs⟩

/-! ### The DP `levenshteinDistance` computes the textbook metric -/

theorem levRec_nil_left (ys : Str) : levRec [] ys = ys.length := rfl

theorem levRec_nil_right (xs : Str) : levRec xs [] = xs.length := by
  cases xs <;> simp [levRec, levRecAux]

theorem levRec_cons_cons (x y : Char) (xs ys : Str) :
    levRec (x :: xs) (y :: ys) =
      if x = y then levRec xs ys
      else 1 + Nat.min (levRec xs ys)
        (Nat.min (levRec (x :: xs) ys) (levRec xs (y :: ys))) := by
  simp [levRec, levRecAux]

theorem levRec_single_left (x b : Char) :
    ∀ ys' : Str, levRec [x] (b :: ys') =
      if x ∈ b :: ys' then (b :: ys').length - 1 else (b :: ys').length := by
  intro ys'
  induction ys' generalizing b with
  | nil =>
    rw [levRec_cons_cons]
    by_cases hxb : x = b <;> simp [hxb, levRec_nil_left, levRec_nil_right]
  | cons c ys'' ih =>
    rw [levRec_cons_cons, ih c]
    by_cases hxb : x = b
    · have hmem : x ∈ b :: c :: ys'' := by simp [hxb]
      simp [hxb, hmem, levRec_nil_left]
    · by_cases hxc : x ∈ c :: ys''
      · have hmem : x ∈ b :: c :: ys'' := List.mem_cons_of_mem _ hxc
        simp only [hxb, reduceIte, hxc, if_true, hmem, levRec_nil_left,
          List.length_cons, Nat.min_def]
        split_ifs <;> omega
      · have hmem : ¬ x ∈ b :: c :: ys'' := by
          simp only [List.mem_cons, not_or]
          simp only [List.mem_cons, not_or] at hxc
          exact ⟨hxb, hxc.1, hxc.2⟩
        simp only [hxb, reduceIte, hxc, hmem, if_false, levRec_nil_left,
          List.length_cons, Nat.min_def]
        split_ifs <;> omega

theorem levRec_single_right (y a : Char) :
    ∀ xs' : Str, levRec (a :: xs') [y] =
      if y ∈ a :: xs' then (a :: xs').length - 1 else (a :: xs').length := by
  intro xs'
  induction xs' generalizing a with
  | nil =>
    rw [show ([y] : Str) = y :: [] from rfl, levRec_cons_cons]
    by_cases hay : a = y
    · simp [hay, levRec_nil_left, levRec_nil_right]
    · have hya : ¬ y = a := fun hh => hay hh.symm
      simp [hay, hya, levRec_nil_left, levRec_nil_right]
  | cons c xs'' ih =>
    rw [show ([y] : Str) = y :: [] from rfl, levRec_cons_cons, ih c]
    by_cases hay : a = y
    · have hmem : y ∈ a :: c :: xs'' := by simp [hay]
      simp [hay, hmem, levRec_nil_right]
    · have hya : ¬ y = a := fun hh => hay hh.symm
      by_cases hyc : y ∈ c :: xs''
      · have hmem : y ∈ a :: c :: xs'' := List.mem_cons_of_mem _ hyc
        simp only [hay, reduceIte, hyc, if_true, hmem, levRec_nil_right,
          List.length_cons, Nat.min_def]
        split_ifs <;> omega
      · have hmem : ¬ y ∈ a :: c :: xs'' := by
          simp only [List.mem_cons, not_or]
          simp only [List.mem_cons, not_or] at hyc
          exact ⟨hya, hyc.1, hyc.2⟩
        simp only [hay, reduceIte, hyc, hmem, if_false, levRec_nil_right,
          List.length_cons, Nat.min_def]
        split_ifs <;> omega

theorem levRec_snoc_base (x y : Char) :
    levRec ([] ++ [x]) ([] ++ [y]) =
      if x = y then levRec ([] : Str) []
      else 1 + Nat.min (levRec ([] : Str) [])
        (Nat.min (levRec ([] ++ [x]) []) (levRec ([] : Str) ([] ++ [y]))) := by
  simp only [List.nil_append, levRec_cons_cons, levRec_nil_left, levRec_nil_right]

theorem levRec_snoc_left_nil (x y b : Char) (ys' : Str) :
    levRec ([] ++ [x]) ((b :: ys') ++ [y]) =
      if x = y then levRec [] (b :: ys')
      else 1 + Nat.min (levRec [] (b :: ys'))
        (Nat.min (levRec ([] ++ [x]) (b :: ys')) (levRec [] ((b :: ys') ++ [y]))) := by
  simp only [List.nil_append, List.cons_append]
  rw [levRec_single_left x b (ys' ++ [y]), levRec_single_left x b ys']
  have hsplit : (x ∈ b :: (ys' ++ [y])) ↔ (x = b ∨ x ∈ ys' ∨ x = y) := by
    simp [List.mem_cons, List.mem_append]
  have hsplit2 : (x ∈ b :: ys') ↔ (x = b ∨ x ∈ ys') := List.mem_cons
  rw [if_congr hsplit rfl rfl, if_congr hsplit2 rfl rfl]
  simp only [levRec_nil_left, List.length_cons, List.length_append,
    List.length_singleton, List.length_nil]
  by_cases hxy : x = y <;> by_cases hxb : x = b <;> by_cases hxm : x ∈ ys' <;>
    simp only [hxy, hxb, hxm, if_true, if_false, or_true, true_or, or_false,
      false_or, reduceIte, Nat.min_def] <;> first | omega | (split_ifs <;> omega)

theorem levRec_snoc_right_nil (x y a : Char) (xs' : Str) :
    levRec ((a :: xs') ++ [x]) ([] ++ [y]) =
      if x = y then levRec (a :: xs') []
      else 1 + Nat.min (levRec (a :: xs') [])
        (Nat.min (levRec ((a :: xs') ++ [x]) []) (levRec (a :: xs') ([] ++ [y]))) := by
  simp only [List.nil_append, List.cons_append]
  rw [levRec_single_right y a (xs' ++ [x]), levRec_single_right y a xs']
  have hsplit : (y ∈ a :: (xs' ++ [x])) ↔ (y = a ∨ y ∈ xs' ∨ y = x) := by
    simp [List.mem_cons, List.mem_append]
  have hsplit2 : (y ∈ a :: xs') ↔ (y = a ∨ y ∈ xs') := List.mem_cons
  rw [if_congr hsplit rfl rfl, if_congr hsplit2 rfl rfl]
  simp only [levRec_nil_right, List.length_cons, List.length_append,
    List.length_singleton, List.length_nil]
  have hxy : (x = y) ↔ (y = x) := eq_comm
  rw [if_congr hxy rfl rfl]
  by_cases hyx : y = x <;> by_cases hya : y = a <;> by_cases hym : y ∈ xs' <;>
    simp only [hyx, hya, hym, if_true, if_false, or_true, true_or, or_false,
      false_or, reduceIte, Nat.min_def] <;> first | omega | (split_ifs <;> omega)

theorem levRec_snoc_fuel (x y : Char) :
    ∀ (n : Nat) (xs ys : Str), xs.length + ys.length ≤ n →
      levRec (xs ++ [x]) (ys ++ [y]) =
        if x = y then levRec xs ys
        else 1 + Nat.min (levRec xs ys)
          (Nat.min (levRec (xs ++ [x]) ys) (levRec xs (ys ++ [y]))) := by
  intro n
  induction n with
  | zero =>
    intro xs ys h
    rcases xs with _ | ⟨a, xs'⟩
    · rcases ys with _ | ⟨b, ys'⟩
      · exact levRec_snoc_base x y
      · simp at h
    · simp at h
  | succ n ih =>
    intro xs ys h
    rcases xs with _ | ⟨a, xs'⟩
    · rcases ys with _ | ⟨b, ys'⟩
      · exact levRec_snoc_base x y
      · exact levRec_snoc_left_nil x y b ys'
    · rcases ys with _ | ⟨b, ys'⟩
      · exact levRec_snoc_right_nil x y a xs'
      · have hlen : xs'.length + ys'.length + 2 ≤ n + 1 := by
          simp only [List.length_cons] at h; omega
        have IH1 := ih xs' ys' (by omega)
        have IH2 := ih (a :: xs') ys' (by simp only [List.length_cons]; omega)
        have IH3 := ih xs' (b :: ys') (by simp only [List.length_cons]; omega)
        simp only [List.cons_append] at IH2 IH3 ⊢
        rw [levRec_cons_cons a b (xs' ++ [x]) (ys' ++ [y]), IH1, IH2, IH3,
          levRec_cons_cons a b xs' ys',
          levRec_cons_cons a b (xs' ++ [x]) ys',
          levRec_cons_cons a b xs' (ys' ++ [y])]
        split_ifs <;> try rfl
        simp only [Nat.add_min_add_left]
        simp only [Nat.min_assoc, Nat.min_comm, Nat.min_left_comm]

/-- The snoc-recursion of the textbook Levenshtein distance. -/
theorem levRec_snoc (x y : Char) (xs ys : Str) :
    levRec (xs ++ [x]) (ys ++ [y]) =
      if x = y then levRec xs ys
      else 1 + Nat.min (levRec xs ys)
        (Nat.min (levRec (xs ++ [x]) ys) (levRec xs (ys ++ [y]))) :=
  levRec_snoc_fuel x y (xs.length + ys.length) xs ys le_rfl

/-- The textbook Levenshtein distance is invariant under reversing both
arguments. -/
theorem levRec_reverse_fuel :
    ∀ (n : Nat) (xs ys : Str), xs.length + ys.length ≤ n →
      levRec xs.reverse ys.reverse = levRec xs ys := by
  intro n
  induction n with
  | zero =>
    intro xs ys h
    rcases xs with _ | ⟨a, xs'⟩ <;> rcases ys with _ | ⟨b, ys'⟩ <;>
      simp only [List.length_cons, List.length_nil] at h <;> try omega
    rfl
  | succ n ih =>
    intro xs ys h
    rcases xs with _ | ⟨a, xs'⟩ <;> rcases ys with _ | ⟨b, ys'⟩
    · rfl
    · simp [levRec_nil_left]
    · simp [levRec_nil_right]
    · simp only [List.length_cons] at h
      have ih2 := ih xs' (b :: ys') (by simp only [List.length_cons]; omega)
      have ih3 := ih (a :: xs') ys' (by simp only [List.length_cons]; omega)
      rw [List.reverse_cons] at ih2 ih3
      rw [List.reverse_cons, List.reverse_cons, levRec_snoc,
        ih xs' ys' (by omega), ih2, ih3, levRec_cons_cons]

theorem levRec_reverse (xs ys : Str) :
    levRec xs.reverse ys.reverse = levRec xs ys :=
  levRec_reverse_fuel (xs.length + ys.length) xs ys le_rfl

theorem levP_nil_left (v : Str) : levP [] v = v.length := by
  simp [levP, levRec_nil_left]

theorem levP_nil_right (u : Str) : levP u [] = u.length := by
  simp [levP, levRec_nil_right]

/-- The snoc-recursion of `levP`, directly from the cons-recursion on reversals. -/
theorem levP_snoc (x y : Char) (u v : Str) :
    levP (u ++ [x]) (v ++ [y]) =
      if x = y then levP u v
      else 1 + Nat.min (levP u v) (Nat.min (levP (u ++ [x]) v) (levP u (v ++ [y]))) := by
  simp only [levP, List.reverse_append, List.reverse_singleton, List.singleton_append,
    levRec_cons_cons]

/-- One DP row update advances every cell of the row from processed prefix
`p` to processed prefix `p ++ [bc]`. -/
theorem levRow_step (bc : Char) :
    ∀ (r : Str) (apre : Str) (c : Char) (p : Str),
      levRow bc (c :: r) (levP apre p :: rowSeg (apre ++ [c]) r p)
          (levP apre (p ++ [bc])) =
        rowSeg (apre ++ [c]) r (p ++ [bc]) := by
  intro r
  induction r with
  | nil =>
    intro apre c p
    simp only [rowSeg, levRow]
    rw [levP_snoc]
    by_cases hbc : bc = c
    · simp [hbc]
    · have hcb : ¬ c = bc := fun hh => hbc hh.symm
      simp only [hbc, hcb, if_false, reduceIte]
      congr 1
      simp only [Nat.add_min_add_right]
      simp only [Nat.min_comm, Nat.min_left_comm, Nat.min_assoc, Nat.add_comm]
  | cons d r' ihr =>
    intro apre c p
    have hhead :
        (if bc = c then levP apre p
         else Nat.min (levP apre p + 1)
           (Nat.min (levP apre (p ++ [bc]) + 1) (levP (apre ++ [c]) p + 1))) =
          levP (apre ++ [c]) (p ++ [bc]) := by
      rw [levP_snoc]
      by_cases hbc : bc = c
      · simp [hbc]
      · have hcb : ¬ c = bc := fun hh => hbc hh.symm
        simp only [hbc, hcb, if_false, reduceIte]
        simp only [Nat.add_min_add_right]
        simp only [Nat.min_comm, Nat.min_left_comm, Nat.min_assoc, Nat.add_comm]
    simp only [rowSeg, levRow]
    rw [hhead]
    exact congrArg (levP (apre ++ [c]) (p ++ [bc]) :: ·) (ihr (apre ++ [c]) d p)

/-- Appending one character of `b` to the processed prefix corresponds to one
pass of the inner loop over the previous row. -/
theorem rowSeg_snoc (bc : Char) (a p : Str) :
    rowSeg [] a (p ++ [bc]) =
      (p.length + 1) :: levRow bc a (rowSeg [] a p) (p.length + 1) := by
  have hleft : levP [] (p ++ [bc]) = p.length + 1 := by
    simp [levP_nil_left]
  rcases a with _ | ⟨c, r⟩
  · simp [rowSeg, levRow, levP_nil_left]
  · have := levRow_step bc r [] c p
    simp only [List.nil_append] at this
    rw [show rowSeg [] (c :: r) (p ++ [bc]) =
        levP [] (p ++ [bc]) :: rowSeg [c] r (p ++ [bc]) from rfl,
      hleft, ← this, ← hleft]
    rfl

/-- The outer loop maps the row for processed prefix `p` to the row for
`p ++ brest`. -/
theorem levLoopGo_rowSeg (a : Str) :
    ∀ (brest p : Str),
      levLoopGo a brest (rowSeg [] a p) (p.length + 1) = rowSeg [] a (p ++ brest) := by
  intro brest
  induction brest with
  | nil => intro p; simp [levLoopGo]
  | cons bc brest' ih =>
    intro p
    have h1 := rowSeg_snoc bc a p
    have h2 := ih (p ++ [bc])
    simp only [List.length_append, List.length_cons, List.length_nil] at h2
    simp only [levLoopGo, ← h1]
    rw [show p.length + 1 + 1 = p.length + 1 + 1 from rfl]
    have h3 : p ++ [bc] ++ brest' = p ++ bc :: brest' := by
      simp
    rw [← h3, ← h2]

/-- The initial row `[0, …, a.length]` is the row of the empty processed
prefix. -/
theorem rowSeg_nil_processed :
    ∀ (arest apre : Str), rowSeg apre arest [] = List.range' apre.length (arest.length + 1) := by
  intro arest
  induction arest with
  | nil => intro apre; simp [rowSeg, levP_nil_right, List.range'_succ]
  | cons c r ih =>
    intro apre
    simp only [rowSeg, levP_nil_right, List.length_cons, List.range'_succ]
    rw [ih (apre ++ [c])]
    simp only [List.length_append, List.length_singleton]
    rw [List.range'_succ]

/-- The last cell of the row for processed prefix `p` holds the distance
between the whole of `a` and `p`. -/
theorem rowSeg_getLastD (p : Str) :
    ∀ (arest apre : Str) (d : Nat), (rowSeg apre arest p).getLastD d = levP (apre ++ arest) p := by
  intro arest
  induction arest with
  | nil => intro apre d; simp [rowSeg]
  | cons c r ih =>
    intro apre d
    simp only [rowSeg, List.getLastD_cons]
    rw [ih (apre ++ [c])]
    simp

/-- The embedded DP `levenshteinDistance` computes the textbook Levenshtein
metric. -/
theorem levenshteinDistance_eq_levRec (a b : Str) :
    levenshteinDistance a b = levRec a b := by
  unfold levenshteinDistance
  have h0 : List.range (a.length + 1) = rowSeg [] a [] := by
    rw [List.range_eq_range']
    exact (rowSeg_nil_processed a []).symm
  rw [h0]
  have h1 := levLoopGo_rowSeg a b []
  simp only [List.length_nil, List.nil_append] at h1
  rw [h1, rowSeg_getLastD b a [] 0]
  simp only [List.nil_append, levP]
  exact levRec_reverse a b

/-! ### The merge frame -/

theorem mergeZoo_frame (e : Zoo) (r : RawZoo) :
    (strTruthy e.city = true → (mergeZoo e r).city = e.city) ∧
    (strTruthy e.county = true → (mergeZoo e r).county = e.county) ∧
    (strTruthy e.website = true → (mergeZoo e r).website = e.website) ∧
    (strTruthy e.wikiUrl = true → (mergeZoo e r).wikiUrl = e.wikiUrl) ∧
    (numTruthy e.latitude = true → (mergeZoo e r).latitude = e.latitude) ∧
    (numTruthy e.longitude = true → (mergeZoo e r).longitude = e.longitude) ∧
    (strTruthy e.city = false →
      (mergeZoo e r).city = if strTruthy r.city then r.city else e.city) ∧
    (strTruthy e.county = false →
      (mergeZoo e r).county = if strTruthy r.county then r.county else e.county) ∧
    (strTruthy e.website = false →
      (mergeZoo e r).website = if strTruthy r.website then r.website else e.website) ∧
    (strTruthy e.wikiUrl = false →
      (mergeZoo e r).wikiUrl = if strTruthy r.wikiUrl then r.wikiUrl else e.wikiUrl) ∧
    (numTruthy e.latitude = false →
      (mergeZoo e r).latitude = if numTruthy r.latitude then r.latitude else e.latitude) ∧
    (numTruthy e.longitude = false →
      (mergeZoo e r).longitude = if numTruthy r.longitude then r.longitude else e.longitude) ∧
    (mergeZoo e r).country = e.country ∧
    ((mergeZoo e r).name = e.name ∨
      (e.name.length < r.name.length ∧ (mergeZoo e r).name = r.name)) ∧
    e.sources <+: (mergeZoo e r).sources := by
  refine ⟨fun h => by simp [mergeZoo, h], fun h => by simp [mergeZoo, h],
    fun h => by simp [mergeZoo, h], fun h => by simp [mergeZoo, h],
    fun h => by simp [mergeZoo, h], fun h => by simp [mergeZoo, h],
    fun h => by simp [mergeZoo, h], fun h => by simp [mergeZoo, h],
    fun h => by simp [mergeZoo, h], fun h => by simp [mergeZoo, h],
    fun h => by simp [mergeZoo, h], fun h => by simp [mergeZoo, h],
    rfl, ?_, ?_⟩
  · by_cases h : r.name.length > e.name.length
    · exact Or.inr ⟨h, by simp [mergeZoo, h]⟩
    · exact Or.inl (by simp [mergeZoo, h])
  · simp only [mergeZoo]
    split
    · exact ⟨[], List.append_nil _⟩
    · exact ⟨[r.source], rfl⟩

/-! ### Claim theorems (first group) -/

/-- Claim C1, counterexample: the engine does not skip a record with an empty
name — on the input consisting of a single record whose `name` is empty,
`dedupeZoos` creates one canonical entity instead of none. -/
theorem claim_C1_counterexample :
    rawEmptyName.name = [] ∧ dedupeZoos [rawEmptyName] ≠ [] ∧
    (dedupeZoos [rawEmptyName]).length = 1 := by decide

/-- Claim C1, amended: a record with an empty or missing name is not skipped;
it is reconciled like every other record (its name normalizes to the empty
key and the record is inserted or merged accordingly).  The run never aborts,
and no record is dropped: every input record's source tag appears in some
canonical entity of the output. -/
theorem claim_C1_amended (l : List RawZoo) (r : RawZoo) (hr : r ∈ l) :
    ∃ z ∈ dedupeZoos l, r.source ∈ z.sources :=
  source_survives_dedupe hr

/-- Witness for the amended claim C1 at the concrete empty-name record. -/
theorem claim_C1_amended_witness :
    ∃ z ∈ dedupeZoos [rawEmptyName], rawEmptyName.source ∈ z.sources :=
  claim_C1_amended [rawEmptyName] rawEmptyName (by simp)

/-- Claim C3: `mergeZoo` never loses data — every truthy (populated) optional
field of the entity is unchanged by a merge; a falsy (absent or empty) field
is adopted from the raw record exactly when the raw record supplies a truthy
value; `country` never changes; `name` changes only to a strictly longer raw
name; `sources` only grows (the old list is a prefix of the new one). -/
theorem claim_C3 (e : Zoo) (r : RawZoo) :
    (strTruthy e.city = true → (mergeZoo e r).city = e.city) ∧
    (strTruthy e.county = true → (mergeZoo e r).county = e.county) ∧
    (strTruthy e.website = true → (mergeZoo e r).website = e.website) ∧
    (strTruthy e.wikiUrl = true → (mergeZoo e r).wikiUrl = e.wikiUrl) ∧
    (numTruthy e.latitude = true → (mergeZoo e r).latitude = e.latitude) ∧
    (numTruthy e.longitude = true → (mergeZoo e r).longitude = e.longitude) ∧
    (strTruthy e.city = false →
      (mergeZoo e r).city = if strTruthy r.city then r.city else e.city) ∧
    (strTruthy e.county = false →
      (mergeZoo e r).county = if strTruthy r.county then r.county else e.county) ∧
    (strTruthy e.website = false →
      (mergeZoo e r).website = if strTruthy r.website then r.website else e.website) ∧
    (strTruthy e.wikiUrl = false →
      (mergeZoo e r).wikiUrl = if strTruthy r.wikiUrl then r.wikiUrl else e.wikiUrl) ∧
    (numTruthy e.latitude = false →
      (mergeZoo e r).latitude = if numTruthy r.latitude then r.latitude else e.latitude) ∧
    (numTruthy e.longitude = false →
      (mergeZoo e r).longitude = if numTruthy r.longitude then r.longitude else e.longitude) ∧
    (mergeZoo e r).country = e.country ∧
    ((mergeZoo e r).name = e.name ∨
      (e.name.length < r.name.length ∧ (mergeZoo e r).name = r.name)) ∧
    e.sources <+: (mergeZoo e r).sources :=
  mergeZoo_frame e r

/-- Witness for claim C3: a populated city survives a merge against a raw
record that supplies a different city. -/
theorem claim_C3_witness :
    strTruthy zooCityPopulated.city = true ∧
    (mergeZoo zooCityPopulated rawCitySupplied).city = zooCityPopulated.city :=
  ⟨by decide, (claim_C3 zooCityPopulated rawCitySupplied).1 (by decide)⟩

/-- Claim C6: the two-record input `Drayton Manor` (source A) and
`Manor Wildlife Park` (source B) yields two distinct canonical entities: the
second name normalizes to `manor`, which is shorter than the containment
rule's length-8 guard, so no similarity match fires. -/
theorem claim_C6 :
    dedupeZoos [rawDrayton, rawManorWildlife] =
      [newZoo rawDrayton, newZoo rawManorWildlife] ∧
    newZoo rawDrayton ≠ newZoo rawManorWildlife ∧
    normalizeZooName rawManorWildlife.name = "manor".toList ∧
    ("manor".toList : Str).length < 8 ∧
    findSimilarZoo ("manor".toList) [normalizeZooName rawDrayton.name] = none := by
  decide

/-- Claim C7: `ZSL London Zoo` (source A) and `London Zoo` with homepage
(source C) reconcile to a single entity named `ZSL London Zoo` with sources
{A, C} and the homepage populated; both names normalize to the same key. -/
theorem claim_C7 :
    (dedupeZoos [rawZslLondon, rawLondonZoo]).map (fun z => (z.name, z.sources, z.website)) =
      [("ZSL London Zoo".toList, [ZooSource.wikipedia, ZooSource.google],
        some ("https://zsl.org".toList))] ∧
    normalizeZooName rawZslLondon.name = normalizeZooName rawLondonZoo.name := by
  decide

/-- Claim C9: the number of canonical entities is at most the number of input
records, with equality exactly when no record took the merge path (neither an
exact normalized-key hit nor a similarity match). -/
theorem claim_C9 (l : List RawZoo) :
    (dedupeZoos l).length ≤ l.length ∧
    ((dedupeZoos l).length = l.length ↔ dedupeMerges l = 0) := by
  have h := length_foldl_dedupeStep l ([] : ZooMap)
  have hm : dedupeMap l = List.foldl dedupeStep [] l := rfl
  rw [← hm] at h
  have hz : (dedupeZoos l).length = (dedupeMap l).length := by
    simp [dedupeZoos]
  unfold dedupeMerges
  simp only [List.length_nil] at h
  omega

/-- The loop-body test of `findSimilarZoo` agrees with the specification
reading of the four rules (with the first-word rule on the literal space). -/
theorem zooMatch_iff_spec (key existing : Str) :
    zooMatch key existing = true ↔ specZooMatch key existing := by
  simp only [zooMatch, specZooMatch, containsSub, levenshteinDistance_eq_levRec,
    Bool.or_eq_true, Bool.and_eq_true, beq_iff_eq, decide_eq_true_eq, and_assoc,
    or_assoc]

theorem findSimilarZoo_eq_spec (key : Str) (l : List Str) :
    findSimilarZoo key l = specFindSimilarZoo key l := by
  unfold findSimilarZoo specFindSimilarZoo
  congr 1
  funext e
  have h := zooMatch_iff_spec key e
  by_cases hz : zooMatch key e = true
  · simp [hz, h.mp hz]
  · have hns : ¬ specZooMatch key e := fun hs => hz (h.mpr hs)
    simp only [Bool.not_eq_true] at hz
    simp [hz, hns]

/-- Claim C4, counterexample: with rule 4 read on whitespace-separated
tokens, the claim mispredicts the code.  For the keys `ab\tcde f` and
`ab\tcde ggg` the code's `split(' ')` first chunks are the equal
6-character strings `ab\tcde`, so `findSimilarZoo` reports a match, while no
rule of the claim fires (the first whitespace-separated tokens are the
2-character `ab`, the true edit distance is 3, and containment fails). -/
theorem claim_C4_counterexample :
    findSimilarZoo keyTab [existingTab] = some existingTab ∧
    specFindSimilarZooWs keyTab [existingTab] = none := by decide

/-- Claim C4, amended: `findSimilarZoo` returns the first existing key, in
list order, satisfying one of the four rules — exact equality; containment of
the shorter in the longer with the shorter at least 8 long; both keys shorter
than 15 with true Levenshtein distance at most 2; equal first
space-separated (split on the literal space, not general whitespace) tokens
longer than 4 — and `null` when no key matches, in particular on an empty
list. -/
theorem claim_C4_amended (key : Str) (l : List Str) :
    findSimilarZoo key l = specFindSimilarZoo key l ∧
    findSimilarZoo key [] = none :=
  ⟨findSimilarZoo_eq_spec key l, rfl⟩

/-- Claim C2, counterexample: normalization is not idempotent.  The name
`zoo zoo` normalizes to `zoo`, whose normalization strips the suffix again
and yields the empty string. -/
theorem claim_C2_counterexample :
    normalizeZooName ("zoo zoo".toList) = "zoo".toList ∧
    normalizeZooName (normalizeZooName ("zoo zoo".toList)) = [] ∧
    normalizeZooName (normalizeZooName ("zoo zoo".toList)) ≠
      normalizeZooName ("zoo zoo".toList) := by decide

/-- Claim C5, counterexample: the `house` rule is a plain substring replace,
so `house` is removed even inside a larger word.  In `Warehouse` the word
`house` occurs only as a substring of a larger whitespace-free word, yet
normalization removes it, leaving `ware`. -/
theorem claim_C5_counterexample :
    ("house".toList : Str) <:+: ("Warehouse".toList : Str).map Char.toLower ∧
    ("Warehouse".toList : Str).all (fun c => !jsWhitespace c) = true ∧
    ("Warehouse".toList : Str).map Char.toLower ≠ "house".toList ∧
    normalizeZooName ("Warehouse".toList) = "ware".toList ∧
    ¬ ("house".toList : Str) <:+: normalizeZooName ("Warehouse".toList) := by decide

/-- Claim C10, counterexample: two records normalizing to the empty key are
not necessarily stored under the empty key.  After `Ox` (key `ox`), both
`Zoo` and `Aquarium` normalize to the empty key, which similarity-matches the
existing short key `ox` (its Levenshtein distance to the empty key is 2), so
everything merges into the entity at `ox` and no entity is stored under the
empty key. -/
theorem claim_C10_counterexample :
    normalizeZooName rawZooOnly.name = [] ∧
    normalizeZooName rawAquariumOnly.name = [] ∧
    mapKeys (dedupeMap [rawOx, rawZooOnly, rawAquariumOnly]) = ["ox".toList] ∧
    mapHasKey (dedupeMap [rawOx, rawZooOnly, rawAquariumOnly]) [] = false := by decide

/-! ### Routing of empty-key records -/

theorem mapHasKey_iff (m : ZooMap) (k : Str) :
    mapHasKey m k = true ↔ k ∈ mapKeys m := by
  simp only [mapHasKey, mapKeys, List.any_eq_true, beq_iff_eq, List.mem_map]

theorem mapKeys_mapMergeAt (m : ZooMap) (k : Str) (raw : RawZoo) :
    mapKeys (mapMergeAt m k raw) = mapKeys m := by
  simp only [mapKeys, mapMergeAt, List.map_map]
  apply List.map_congr_left
  intro p _
  simp only [Function.comp_apply]
  split <;> rfl

theorem specZooMatch_nil (e : Str) : specZooMatch [] e ↔ e.length ≤ 2 := by
  cases e with
  | nil => simp [specZooMatch]
  | cons c es =>
    simp only [specZooMatch, firstWordTok, levRec_nil_left]
    simp [List.length_cons]
    omega

theorem findSimilarZoo_nil_key (ks : List Str) :
    findSimilarZoo [] ks = ks.find? (fun k => decide (k.length ≤ 2)) := by
  rw [findSimilarZoo_eq_spec]
  unfold specFindSimilarZoo
  congr 1
  funext e
  by_cases h : e.length ≤ 2
  · simp [h, (specZooMatch_nil e).mpr h]
  · have : ¬ specZooMatch [] e := fun hs => h ((specZooMatch_nil e).mp hs)
    simp [h, this]

theorem destKey_empty {m : ZooMap} {raw : RawZoo} {t : Str}
    (hname : normalizeZooName raw.name = [])
    (hP : EmptyRouted t (mapKeys m)) : destKey m raw = t := by
  dsimp only [destKey]
  rw [hname, findSimilarZoo_nil_key]
  rcases hP with ⟨hmem, rfl⟩ | ⟨hmem, hfind⟩
  · rw [if_pos ((mapHasKey_iff m []).mpr hmem)]
  · have hhk : mapHasKey m [] = false := by
      rcases h : mapHasKey m [] with _ | _
      · rfl
      · exact absurd ((mapHasKey_iff m []).mp h) hmem
    rw [hhk]
    simp [hfind]

theorem emptyRouted_dedupeStep {t : Str} {m : ZooMap} (raw : RawZoo)
    (hP : EmptyRouted t (mapKeys m)) :
    EmptyRouted t (mapKeys (dedupeStep m raw)) := by
  dsimp only [dedupeStep]
  split
  · rwa [mapKeys_mapMergeAt]
  · next hhk =>
    split
    · rwa [mapKeys_mapMergeAt]
    · next hfind =>
      have hkeys : mapKeys (m ++ [(normalizeZooName raw.name, newZoo raw)]) =
          mapKeys m ++ [normalizeZooName raw.name] := by
        simp [mapKeys]
      rw [hkeys]
      rcases hP with ⟨hmem, ht⟩ | ⟨hmem, hfindt⟩
      · exact Or.inl ⟨List.mem_append_left _ hmem, ht⟩
      · have hkey : normalizeZooName raw.name ≠ [] := by
          intro hk
          rw [hk, findSimilarZoo_nil_key, hfindt] at hfind
          exact Option.noConfusion hfind
        refine Or.inr ⟨?_, ?_⟩
        · intro hmem'
          rcases List.mem_append.mp hmem' with h | h
          · exact hmem h
          · exact hkey (List.mem_singleton.mp h).symm
        · rw [List.find?_append, hfindt]
          rfl

theorem emptyRouted_establish {m : ZooMap} {raw : RawZoo}
    (hname : normalizeZooName raw.name = []) :
    EmptyRouted (destKey m raw) (mapKeys (dedupeStep m raw)) := by
  dsimp only [destKey, dedupeStep]
  rw [hname, findSimilarZoo_nil_key]
  rcases hh : mapHasKey m [] with _ | _
  · simp only [hh, Bool.false_eq_true, if_false, reduceIte]
    rcases hf : (mapKeys m).find? (fun k => decide (k.length ≤ 2)) with _ | k
    · simp only [hf]
      refine Or.inl ⟨?_, rfl⟩
      have hk : mapKeys (m ++ [(([] : Str), newZoo raw)]) = mapKeys m ++ [[]] := by
        simp [mapKeys]
      rw [hk]
      exact List.mem_append_right _ (List.mem_singleton.mpr rfl)
    · simp only [hf]
      rw [mapKeys_mapMergeAt]
      refine Or.inr ⟨?_, hf⟩
      intro hmem
      rw [(mapHasKey_iff m []).mpr hmem] at hh
      exact Bool.noConfusion hh
  · simp only [hh, if_true]
    rw [mapKeys_mapMergeAt]
    exact Or.inl ⟨(mapHasKey_iff m []).mp hh, rfl⟩

theorem emptyRouted_foldl {t : Str} (rs : List RawZoo) :
    ∀ m : ZooMap, EmptyRouted t (mapKeys m) →
      EmptyRouted t (mapKeys (List.foldl dedupeStep m rs)) := by
  induction rs with
  | nil => intro m h; simpa using h
  | cons r rs ih => intro m h; exact ih _ (emptyRouted_dedupeStep r h)

/-- Claim C10, amended: any two raw records whose names normalize to the
empty string are routed to the same canonical entity — the later one merges
into whatever entity the earlier one went to.  That entity sits at the empty
key only when, at the time the first such record arrives, the map already
holds the empty key or no key of length at most 2 exists; otherwise both
records merge into the entity at the first such short key. -/
theorem claim_C10_amended (l₁ l₂ : List RawZoo) (r₁ r₂ : RawZoo)
    (h₁ : normalizeZooName r₁.name = []) (h₂ : normalizeZooName r₂.name = []) :
    destKey (List.foldl dedupeStep (dedupeStep (dedupeMap l₁) r₁) l₂) r₂ =
      destKey (dedupeMap l₁) r₁ :=
  destKey_empty h₂ (emptyRouted_foldl l₂ _ (emptyRouted_establish h₁))

/-- Witness for the amended claim C10: `Zoo` and `Aquarium` back to back are
routed to the same entity. -/
theorem claim_C10_amended_witness :
    destKey (List.foldl dedupeStep (dedupeStep (dedupeMap []) rawZooOnly) [])
        rawAquariumOnly =
      destKey (dedupeMap []) rawZooOnly :=
  claim_C10_amended [] [] rawZooOnly rawAquariumOnly (by decide) (by decide)

/-! ### Structure of normalized names: lower-case letters, canonical
spacing -/

theorem char_toLower_eq_of_not (d : Char) (hd : ¬(d.toNat ≥ 65 ∧ d.toNat ≤ 90)) :
    Char.toLower d = d := by
  simp only [Char.toLower]
  exact if_neg hd

theorem char_toNat_toLower_of (c : Char) (h : c.toNat ≥ 65 ∧ c.toNat ≤ 90) :
    (Char.toLower c).toNat = c.toNat + 32 := by
  have hv : Nat.isValidChar (c.toNat + 32) := Or.inl (by omega)
  simp only [Char.toLower]
  rw [if_pos h]
  unfold Char.ofNat
  rw [dif_pos hv]
  rfl

theorem toLower_toLower (c : Char) : (Char.toLower c).toLower = Char.toLower c := by
  by_cases h : c.toNat ≥ 65 ∧ c.toNat ≤ 90
  · apply char_toLower_eq_of_not
    rw [char_toNat_toLower_of c h]
    omega
  · rw [char_toLower_eq_of_not c h]
    exact char_toLower_eq_of_not c h

theorem unifyQuotes_id (s : Str) : unifyQuotes s = s := by
  have h : ∀ c : Char, (if c = '\'' then '\'' else c) = c := by
    intro c
    by_cases hc : c = '\'' <;> simp [hc]
  simp only [unifyQuotes]
  rw [show (fun c => if c = '\'' then '\'' else c) = id from funext h, List.map_id]

theorem map_id_of_mem {f : Char → Char} :
    ∀ {l : Str}, (∀ c ∈ l, f c = c) → l.map f = l := by
  intro l
  induction l with
  | nil => intro _; rfl
  | cons c cs ih =>
    intro h
    simp only [List.map_cons, h c (List.mem_cons_self c cs),
      ih (fun d hd => h d (List.mem_cons_of_mem c hd))]

theorem mem_dropTrailWs {c : Char} {s : Str} (h : c ∈ dropTrailWs s) : c ∈ s := by
  unfold dropTrailWs at h
  rw [List.mem_reverse] at h
  exact List.mem_reverse.mp ((List.dropWhile_sublist jsWhitespace).subset h)

theorem mem_dropLeadWs {c : Char} {s : Str} (h : c ∈ dropLeadWs s) : c ∈ s :=
  (List.dropWhile_sublist jsWhitespace).subset h

theorem mem_collapseGo {c : Char} :
    ∀ {fl : Bool} {s : Str}, c ∈ collapseGo fl s → c ∈ s ∨ c = ' ' := by
  intro fl s
  induction s generalizing fl with
  | nil => intro h; cases h
  | cons d ds ih =>
    intro h
    simp only [collapseGo] at h
    by_cases hd : jsWhitespace d
    · rw [if_pos hd] at h
      rcases fl with _ | _
      · simp only [Bool.false_eq_true, if_false, reduceIte, List.mem_cons] at h
        rcases h with h | h
        · exact Or.inr h
        · rcases ih h with h' | h'
          · exact Or.inl (List.mem_cons_of_mem d h')
          · exact Or.inr h'
      · simp only [if_true] at h
        rcases ih h with h' | h'
        · exact Or.inl (List.mem_cons_of_mem d h')
        · exact Or.inr h'
    · rw [if_neg hd] at h
      rcases List.mem_cons.mp h with h | h
      · exact Or.inl (h ▸ List.mem_cons_self d ds)
      · rcases ih h with h' | h'
        · exact Or.inl (List.mem_cons_of_mem d h')
        · exact Or.inr h'

theorem mem_collapseWs {c : Char} {s : Str} (h : c ∈ collapseWs s) : c ∈ s ∨ c = ' ' :=
  mem_collapseGo h

theorem mem_stripTok {c : Char} {w s t : Str} (ht : stripTok w s = some t)
    (h : c ∈ t) : c ∈ s := by
  unfold stripTok at ht
  split at ht
  · cases ht
    exact List.take_subset _ _ (mem_dropTrailWs h)
  · cases ht

theorem mem_stripEnd1 {c : Char} {w s : Str} (h : c ∈ stripEnd1 w s) : c ∈ s := by
  unfold stripEnd1 at h
  rcases hs : stripTok w s with _ | t
  · simp only [hs, Option.getD_none] at h; exact h
  · simp only [hs, Option.getD_some] at h; exact mem_stripTok hs h

theorem mem_stripEnd2 {c : Char} {w1 w2 s : Str} (h : c ∈ stripEnd2 w1 w2 s) :
    c ∈ s := by
  unfold stripEnd2 at h
  rcases h2 : stripTok w2 s with _ | t
  · simp only [h2] at h; exact h
  · simp only [h2] at h
    rcases h1 : stripTok w1 t with _ | u
    · simp only [h1] at h; exact h
    · simp only [h1] at h; exact mem_stripTok h2 (mem_stripTok h1 h)

theorem mem_stripEnd3 {c : Char} {w1 w2 w3 s t : Str}
    (ht : stripEnd3 w1 w2 w3 s = some t) (h : c ∈ t) : c ∈ s := by
  unfold stripEnd3 at ht
  rcases h3 : stripTok w3 s with _ | u
  · simp only [h3] at ht
    exact Option.noConfusion ht
  · simp only [h3] at ht
    rcases h2 : stripTok w2 u with _ | v
    · simp only [h2] at ht
      exact Option.noConfusion ht
    · simp only [h2] at ht
      exact mem_stripTok h3 (mem_stripTok h2 (mem_stripTok ht h))

theorem mem_stripSeaLife {c : Char} {s : Str} (h : c ∈ stripSeaLife s) : c ∈ s := by
  unfold stripSeaLife at h
  rcases h1 : stripEnd3 "sea".toList "life".toList "centre".toList s with _ | t <;>
    simp only [h1] at h
  · rcases h2 : stripEnd3 "sea".toList "life".toList "centr".toList s with _ | t <;>
      simp only [h2] at h
    · exact h
    · exact mem_stripEnd3 h2 h
  · exact mem_stripEnd3 h1 h

theorem mem_replaceWordOnce {c : Char} {w s : Str} (h : c ∈ replaceWordOnce w s) :
    c ∈ s ∨ c = ' ' := by
  unfold replaceWordOnce at h
  rcases hf : findSub w s with _ | i <;> simp only [hf] at h
  · exact Or.inl h
  · rcases List.mem_append.mp h with h' | h'
    · exact Or.inl (List.take_subset _ _ (mem_dropTrailWs h'))
    · rcases List.mem_cons.mp h' with h'' | h''
      · exact Or.inr h''
      · exact Or.inl (List.drop_subset _ _ (mem_dropLeadWs h''))

theorem mem_stripLead {c : Char} {w s : Str} (h : c ∈ stripLead w s) : c ∈ s := by
  unfold stripLead at h
  split at h
  · split at h
    · exact h
    · next c' rest heq =>
      split at h
      · have h2 : c ∈ c' :: rest :=
          List.mem_cons_of_mem _ ((List.dropWhile_sublist jsWhitespace).subset h)
        rw [← heq] at h2
        exact List.drop_subset _ _ h2
      · exact h
  · exact h

theorem mem_trimWs {c : Char} {s : Str} (h : c ∈ trimWs s) : c ∈ s :=
  mem_dropLeadWs (mem_dropTrailWs h)

/-- Every character of a normalized name is fixed by `Char.toLower`. -/
theorem toLower_fixed_normalize {c : Char} {s : Str}
    (h : c ∈ normalizeZooName s) : Char.toLower c = c := by
  unfold normalizeZooName at h
  have h1 := mem_trimWs h
  rcases mem_collapseWs h1 with h2 | h2
  swap
  · subst h2; decide
  have h3 := mem_stripLead h2
  have h4 := mem_stripLead h3
  rcases mem_replaceWordOnce h4 with h5 | h5
  swap
  · subst h5; decide
  rcases mem_replaceWordOnce h5 with h6 | h6
  swap
  · subst h6; decide
  have h7 := mem_stripSeaLife h6
  have h8 := mem_stripEnd1 h7
  have h9 := mem_stripEnd2 h8
  have h10 := mem_stripEnd2 h9
  have h11 := mem_stripEnd2 h10
  have h12 := mem_stripEnd1 h11
  rcases mem_collapseWs h12 with h13 | h13
  swap
  · subst h13; decide
  rw [unifyQuotes_id] at h13
  obtain ⟨d, _, rfl⟩ := List.mem_map.mp h13
  exact toLower_toLower d

/-- A normalized name is already lower-case. -/
theorem map_toLower_normalize (s : Str) :
    (normalizeZooName s).map Char.toLower = normalizeZooName s :=
  map_id_of_mem (fun _ h => toLower_fixed_normalize h)

theorem collapseGo_fixed :
    ∀ (t : Str) (fl : Bool), spacedOK fl t = true → collapseGo fl t = t := by
  intro t
  induction t with
  | nil => intro fl _; rfl
  | cons c cs ih =>
    intro fl h
    simp only [spacedOK] at h
    by_cases hc : jsWhitespace c
    · rw [if_pos hc] at h
      obtain ⟨⟨hceq, hfl⟩, hrec⟩ := by
        simpa [Bool.and_eq_true] using h
      have hc' : c = ' ' := by simpa using hceq
      have hfl' : fl = false := by simpa using hfl
      subst hc'
      subst hfl'
      simp only [collapseGo, hc, if_true, Bool.false_eq_true, if_false, reduceIte]
      rw [ih true hrec]
    · rw [if_neg hc] at h
      simp only [collapseGo, hc, Bool.false_eq_true, if_false, reduceIte]
      rw [ih false h]

theorem spacedOK_collapseGo :
    ∀ (t : Str) (fl : Bool), spacedOK fl (collapseGo fl t) = true := by
  intro t
  induction t with
  | nil => intro fl; rfl
  | cons c cs ih =>
    intro fl
    by_cases hc : jsWhitespace c
    · simp only [collapseGo, hc, if_true]
      rcases fl with _ | _
      · simp only [Bool.false_eq_true, if_false, reduceIte]
        have hsp : jsWhitespace ' ' = true := by decide
        simp only [spacedOK, hsp, if_true]
        simpa using ih true
      · simp only [if_true]
        exact ih true
    · simp only [collapseGo, hc, Bool.false_eq_true, if_false, reduceIte,
        spacedOK]
      exact ih false

theorem spacedOK_mono {t : Str} (h : spacedOK true t = true) :
    spacedOK false t = true := by
  cases t with
  | nil => rfl
  | cons c cs =>
    simp only [spacedOK] at h ⊢
    by_cases hc : jsWhitespace c
    · rw [if_pos hc] at h
      simp at h
    · rw [if_neg hc] at h ⊢
      exact h

theorem spacedOK_append_left :
    ∀ (t₁ t₂ : Str) (fl : Bool), spacedOK fl (t₁ ++ t₂) = true →
      spacedOK fl t₁ = true := by
  intro t₁
  induction t₁ with
  | nil => intro t₂ fl _; rfl
  | cons c cs ih =>
    intro t₂ fl h
    simp only [List.cons_append, spacedOK] at h ⊢
    by_cases hc : jsWhitespace c
    · rw [if_pos hc] at h ⊢
      obtain ⟨hh, hrec⟩ := by simpa [Bool.and_eq_true] using h
      simp [Bool.and_eq_true, hh.1, hh.2, ih t₂ true hrec]
    · rw [if_neg hc] at h ⊢
      exact ih t₂ false h

theorem dropTrailWs_append (t : Str) : ∃ u, dropTrailWs t ++ u = t := by
  have h : dropTrailWs t <+: t := by
    have h1 : List.dropWhile jsWhitespace t.reverse <:+ t.reverse :=
      List.dropWhile_suffix jsWhitespace
    have h2 := List.reverse_prefix.mpr h1
    rwa [List.reverse_reverse] at h2
  exact h

theorem spacedOK_dropTrailWs {t : Str} {fl : Bool} (h : spacedOK fl t = true) :
    spacedOK fl (dropTrailWs t) = true := by
  obtain ⟨u, hu⟩ := dropTrailWs_append t
  exact spacedOK_append_left _ u fl (by rwa [hu])

theorem dropLeadWs_collapseGo :
    ∀ t : Str, dropLeadWs (collapseGo true t) = collapseGo true t ∧
      dropLeadWs (collapseGo false t) = collapseGo true t := by
  intro t
  induction t with
  | nil => exact ⟨rfl, rfl⟩
  | cons c cs ih =>
    by_cases hc : jsWhitespace c
    · constructor
      · simp only [collapseGo, hc, if_true]
        exact ih.1
      · simp only [collapseGo, hc, if_true, Bool.false_eq_true, if_false,
          reduceIte]
        have hsp : jsWhitespace ' ' = true := by decide
        simp only [dropLeadWs, List.dropWhile_cons, hsp, if_true]
        exact ih.1
    · constructor <;>
      · simp only [collapseGo, hc, Bool.false_eq_true, if_false, reduceIte]
        simp [dropLeadWs, List.dropWhile_cons, hc]

theorem dropWhile_dropWhile (p : Char → Bool) :
    ∀ l : Str, List.dropWhile p (List.dropWhile p l) = List.dropWhile p l := by
  intro l
  induction l with
  | nil => rfl
  | cons c cs ih =>
    by_cases hc : p c
    · simp [List.dropWhile_cons, hc, ih]
    · simp [List.dropWhile_cons, hc]

theorem dropTrailWs_idem (t : Str) : dropTrailWs (dropTrailWs t) = dropTrailWs t := by
  unfold dropTrailWs
  rw [List.reverse_reverse, dropWhile_dropWhile]

theorem dropLeadWs_of_isPre {u w : Str} (hu : dropLeadWs u = u) (hw : w <+: u) :
    dropLeadWs w = w := by
  cases w with
  | nil => rfl
  | cons c w' =>
    obtain ⟨v, hv⟩ := hw
    cases u with
    | nil => exact absurd hv (by simp)
    | cons d u' =>
      have hcd : c = d := by
        have := congrArg (fun l => l.head?) hv
        simpa using this
      subst hcd
      by_cases hc : jsWhitespace c
      · exfalso
        simp only [dropLeadWs, List.dropWhile_cons, hc, if_true] at hu
        have hlen := congrArg List.length hu
        have hle : (u'.dropWhile jsWhitespace).length ≤ u'.length :=
          (List.dropWhile_sublist jsWhitespace).length_le
        simp only [List.length_cons] at hlen
        omega
      · simp [dropLeadWs, List.dropWhile_cons, hc]

theorem collapseWs_trim_collapse (u : Str) :
    collapseWs (trimWs (collapseWs u)) = trimWs (collapseWs u) := by
  unfold trimWs collapseWs
  rw [(dropLeadWs_collapseGo u).2]
  apply collapseGo_fixed
  exact spacedOK_mono (spacedOK_dropTrailWs (spacedOK_collapseGo u true))

theorem trimWs_trim_collapse (u : Str) :
    trimWs (trimWs (collapseWs u)) = trimWs (collapseWs u) := by
  unfold trimWs collapseWs
  rw [(dropLeadWs_collapseGo u).2]
  have h1 : dropLeadWs (dropTrailWs (collapseGo true u)) =
      dropTrailWs (collapseGo true u) :=
    dropLeadWs_of_isPre (dropLeadWs_collapseGo u).1
      (dropTrailWs_append (collapseGo true u))
  rw [h1, dropTrailWs_idem]

theorem normalizeZooName_def (t : Str) :
    normalizeZooName t =
      trimWs (collapseWs
        (stripLead "zsl".toList
          (stripLead "the".toList
            (replaceWordOnce "wild".toList
              (replaceWordOnce "house".toList
                (stripSeaLife
                  (stripEnd1 "aquarium".toList
                    (stripEnd2 "animal".toList "park".toList
                      (stripEnd2 "wildlife".toList "park".toList
                        (stripEnd2 "safari".toList "park".toList
                          (stripEnd1 "zoo".toList
                            (collapseWs (unifyQuotes (t.map Char.toLower)))))))))))))) :=
  rfl

/-- A normalized name is a fixed point of the whitespace collapse. -/
theorem collapseWs_normalize (s : Str) :
    collapseWs (normalizeZooName s) = normalizeZooName s :=
  collapseWs_trim_collapse _

/-- A normalized name is a fixed point of `trim`. -/
theorem trimWs_normalize (s : Str) :
    trimWs (normalizeZooName s) = normalizeZooName s :=
  trimWs_trim_collapse _

/-- Claim C2, amended: normalization is idempotent on every name whose
normalized form does not itself trigger one of the ten rewrite rules (the
suffix strips, the `house`/`wild` removals and the prefix strips); the
case-folding, apostrophe, whitespace-collapse and trim stages never re-fire
on a normalized name.  (Unconditional idempotence is false, see the
counterexample.) -/
theorem claim_C2_amended (s : Str)
    (hzoo : stripEnd1 "zoo".toList (normalizeZooName s) = normalizeZooName s)
    (hsaf : stripEnd2 "safari".toList "park".toList (normalizeZooName s) =
      normalizeZooName s)
    (hwl : stripEnd2 "wildlife".toList "park".toList (normalizeZooName s) =
      normalizeZooName s)
    (hani : stripEnd2 "animal".toList "park".toList (normalizeZooName s) =
      normalizeZooName s)
    (haq : stripEnd1 "aquarium".toList (normalizeZooName s) = normalizeZooName s)
    (hsea : stripSeaLife (normalizeZooName s) = normalizeZooName s)
    (hhouse : replaceWordOnce "house".toList (normalizeZooName s) =
      normalizeZooName s)
    (hwild : replaceWordOnce "wild".toList (normalizeZooName s) =
      normalizeZooName s)
    (hthe : stripLead "the".toList (normalizeZooName s) = normalizeZooName s)
    (hzsl : stripLead "zsl".toList (normalizeZooName s) = normalizeZooName s) :
    normalizeZooName (normalizeZooName s) = normalizeZooName s := by
  rw [normalizeZooName_def (normalizeZooName s), map_toLower_normalize,
    unifyQuotes_id, collapseWs_normalize s, hzoo, hsaf, hwl, hani, haq, hsea,
    hhouse, hwild, hthe, hzsl, collapseWs_normalize s, trimWs_normalize s]

/-- Witness for the amended claim C2 at the name `Chester`, whose normalized
form `chester` triggers none of the rules. -/
theorem claim_C2_amended_witness :
    normalizeZooName (normalizeZooName ("Chester".toList)) =
      normalizeZooName ("Chester".toList) :=
  claim_C2_amended "Chester".toList (by decide) (by decide) (by decide)
    (by decide) (by decide) (by decide) (by decide) (by decide) (by decide)
    (by decide)

/-! ### Words of a normalized name occur in the input -/

theorem subOfPre {w u : Str} (h : w <+: u) : w <:+: u := by
  obtain ⟨t, ht⟩ := h
  exact ⟨[], t, by simpa using ht⟩

theorem subOfSuf {w u : Str} (h : w <:+ u) : w <:+: u := by
  obtain ⟨p, hp⟩ := h
  exact ⟨p, [], by simpa using hp⟩

theorem subOfCons {w : Str} {a : Char} {l : Str} (h : w <:+: a :: l) :
    w <+: a :: l ∨ w <:+: l := by
  obtain ⟨st, en, hst⟩ := h
  cases st with
  | nil => exact Or.inl ⟨en, by simpa using hst⟩
  | cons b st' =>
    right
    have hst' : st' ++ w ++ en = l := by
      have := congrArg List.tail hst
      simpa using this
    exact ⟨st', en, hst'⟩

theorem subConsOf {w : Str} (a : Char) {l : Str} (h : w <:+: l) :
    w <:+: a :: l := by
  obtain ⟨st, en, hst⟩ := h
  exact ⟨a :: st, en, by simp [hst]⟩

theorem preOfCons {w : Str} {a : Char} {l : Str} (h : w <+: a :: l) :
    w = [] ∨ ∃ w', w = a :: w' ∧ w' <+: l := by
  obtain ⟨t, ht⟩ := h
  cases w with
  | nil => exact Or.inl rfl
  | cons c w' =>
    have hc : c = a := by
      have := congrArg List.head? ht
      simpa using this
    have hw : w' ++ t = l := by
      have := congrArg List.tail ht
      simpa using this
    exact Or.inr ⟨w', by rw [hc], ⟨t, hw⟩⟩

/-- `w` has no whitespace characters. -/
theorem preSplit :
    ∀ (A : Str) {C w : Str}, w <+: A ++ C →
      w <+: A ∨ ∃ r, w = A ++ r ∧ r <+: C := by
  intro A
  induction A with
  | nil => intro C w h; exact Or.inr ⟨w, rfl, h⟩
  | cons a A' ih =>
    intro C w h
    rcases preOfCons (by simpa using h) with h0 | ⟨w', hw, hp⟩
    · subst h0; exact Or.inl ⟨a :: A', rfl⟩
    · rcases ih hp with h1 | ⟨r, hr1, hr2⟩
      · subst hw
        exact Or.inl ⟨A'.drop w'.length, by
          obtain ⟨t, ht⟩ := h1
          simp [← ht]⟩
      · exact Or.inr ⟨r, by rw [hw, hr1]; rfl, hr2⟩

theorem sandwich {w : Str} (hw : ∀ c ∈ w, jsWhitespace c = false) {sp : Char}
    (hsp : jsWhitespace sp = true) :
    ∀ (A : Str) {B : Str}, w <:+: A ++ sp :: B → w <:+: A ∨ w <:+: B := by
  intro A
  induction A with
  | nil =>
    intro B h
    rcases subOfCons (by simpa using h) with h0 | h0
    · rcases preOfCons h0 with h1 | ⟨w', hw', _⟩
      · subst h1; exact Or.inl ⟨[], [], rfl⟩
      · exfalso
        have hm : sp ∈ w := by rw [hw']; exact List.mem_cons_self _ _
        rw [hw sp hm] at hsp
        exact Bool.noConfusion hsp
    · exact Or.inr h0
  | cons a A' ih =>
    intro B h
    rcases subOfCons (by simpa using h) with h0 | h0
    · rcases preOfCons h0 with h1 | ⟨w', hww, hp⟩
      · subst h1; exact Or.inl ⟨[], a :: A', rfl⟩
      · rcases preSplit A' hp with h2 | ⟨r, hr1, hr2⟩
        · left
          rw [hww]
          exact subOfPre ⟨A'.drop w'.length, by
            obtain ⟨t, ht⟩ := h2
            simp [← ht]⟩
        · rcases r with _ | ⟨c, r'⟩
          · left
            rw [hww, hr1]
            exact subOfPre ⟨[], by simp⟩
          · exfalso
            have hc : c = sp := by
              obtain ⟨t, ht⟩ := hr2
              have := congrArg List.head? ht
              simpa using this
            have hm : sp ∈ w := by
              rw [hww, hr1, ← hc]
              exact List.mem_cons_of_mem _ (List.mem_append_right _
                (List.mem_cons_self _ _))
            rw [hw sp hm] at hsp
            exact Bool.noConfusion hsp
    · rcases ih h0 with h1 | h1
      · exact Or.inl (subConsOf a h1)
      · exact Or.inr h1

theorem preCollapse {w : Str} (hw : ∀ c ∈ w, jsWhitespace c = false) :
    ∀ {t : Str}, w <+: collapseGo false t → w <+: t := by
  intro t
  induction t generalizing w with
  | nil =>
    intro h
    simpa [collapseGo] using h
  | cons c cs ih =>
    intro h
    by_cases hc : jsWhitespace c
    · simp only [collapseGo, hc, if_true, Bool.false_eq_true, if_false,
        reduceIte] at h
      rcases preOfCons h with h0 | ⟨w', hww, _⟩
      · subst h0; exact ⟨c :: cs, rfl⟩
      · exfalso
        have hmem : ' ' ∈ w := by rw [hww]; exact List.mem_cons_self _ _
        have h2 := hw _ hmem
        rw [show jsWhitespace ' ' = true from by decide] at h2
        exact Bool.noConfusion h2
    · simp only [collapseGo, hc, Bool.false_eq_true, if_false, reduceIte] at h
      rcases preOfCons h with h0 | ⟨w', hww, hp⟩
      · subst h0; exact ⟨c :: cs, rfl⟩
      · have hw' : ∀ d ∈ w', jsWhitespace d = false := fun d hd =>
          hw d (by rw [hww]; exact List.mem_cons_of_mem _ hd)
        rw [hww]
        obtain ⟨t', ht'⟩ := ih hw' hp
        exact ⟨t', by rw [← ht']; rfl⟩

theorem subCollapse {w : Str} (hw : ∀ c ∈ w, jsWhitespace c = false) :
    ∀ {t : Str} {fl : Bool}, w <:+: collapseGo fl t → w <:+: t := by
  intro t
  induction t generalizing w with
  | nil =>
    intro fl h
    simpa [collapseGo] using h
  | cons c cs ih =>
    intro fl h
    by_cases hc : jsWhitespace c
    · rcases fl with _ | _
      · simp only [collapseGo, hc, if_true, Bool.false_eq_true, if_false,
          reduceIte] at h
        rcases subOfCons h with h0 | h0
        · rcases preOfCons h0 with h1 | ⟨w', hww, _⟩
          · subst h1; exact ⟨[], c :: cs, rfl⟩
          · exfalso
            have hmem : ' ' ∈ w := by rw [hww]; exact List.mem_cons_self _ _
            have h2 := hw _ hmem
            rw [show jsWhitespace ' ' = true from by decide] at h2
            exact Bool.noConfusion h2
        · exact subConsOf c (ih hw h0)
      · simp only [collapseGo, hc, if_true] at h
        exact subConsOf c (ih hw h)
    · simp only [collapseGo, hc, Bool.false_eq_true, if_false, reduceIte] at h
      rcases subOfCons h with h0 | h0
      · rcases preOfCons h0 with h1 | ⟨w', hww, hp⟩
        · subst h1; exact ⟨[], c :: cs, rfl⟩
        · have hw' : ∀ d ∈ w', jsWhitespace d = false := fun d hd =>
            hw d (by rw [hww]; exact List.mem_cons_of_mem _ hd)
          have := preCollapse hw' hp
          rw [hww]
          exact subOfPre ⟨cs.drop w'.length, by
            obtain ⟨t', ht'⟩ := this
            simp [← ht']⟩
      · exact subConsOf c (ih hw h0)

theorem subDropTrail (t : Str) : dropTrailWs t <:+: t :=
  subOfPre (dropTrailWs_append t)

theorem subDropLead (t : Str) : dropLeadWs t <:+: t :=
  subOfSuf (List.dropWhile_suffix jsWhitespace)

theorem subTake (n : Nat) (t : Str) : t.take n <:+: t :=
  subOfPre ⟨t.drop n, List.take_append_drop n t⟩

theorem subDrop (n : Nat) (t : Str) : t.drop n <:+: t :=
  subOfSuf (List.drop_suffix n t)

theorem subTrim (t : Str) : trimWs t <:+: t :=
  (subDropTrail (dropLeadWs t)).trans (subDropLead t)

theorem subStripTok {w s t : Str} (h : stripTok w s = some t) : t <:+: s := by
  unfold stripTok at h
  split at h
  · cases h
    exact (subDropTrail _).trans (subTake _ _)
  · cases h

theorem subStripEnd1 (w s : Str) : stripEnd1 w s <:+: s := by
  unfold stripEnd1
  rcases hs : stripTok w s with _ | t
  · simp only [Option.getD_none]
    exact ⟨[], [], by simp⟩
  · simp only [Option.getD_some]
    exact subStripTok hs

theorem subStripEnd2 (w1 w2 s : Str) : stripEnd2 w1 w2 s <:+: s := by
  unfold stripEnd2
  rcases h2 : stripTok w2 s with _ | t
  · simp only [h2]
    exact ⟨[], [], by simp⟩
  · simp only [h2]
    rcases h1 : stripTok w1 t with _ | u
    · simp only [h1]
      exact ⟨[], [], by simp⟩
    · simp only [h1]
      exact (subStripTok h1).trans (subStripTok h2)

theorem subStripEnd3 {w1 w2 w3 s t : Str} (h : stripEnd3 w1 w2 w3 s = some t) :
    t <:+: s := by
  unfold stripEnd3 at h
  rcases h3 : stripTok w3 s with _ | u
  · simp only [h3] at h
    exact Option.noConfusion h
  · simp only [h3] at h
    rcases h2 : stripTok w2 u with _ | v
    · simp only [h2] at h
      exact Option.noConfusion h
    · simp only [h2] at h
      exact ((subStripTok h).trans (subStripTok h2)).trans (subStripTok h3)

theorem subStripSeaLife (s : Str) : stripSeaLife s <:+: s := by
  unfold stripSeaLife
  rcases h1 : stripEnd3 "sea".toList "life".toList "centre".toList s with _ | t
  · simp only [h1]
    rcases h2 : stripEnd3 "sea".toList "life".toList "centr".toList s with _ | t
    · simp only [h2]
      exact ⟨[], [], by simp⟩
    · simp only [h2]
      exact subStripEnd3 h2
  · simp only [h1]
    exact subStripEnd3 h1

theorem subStripLead (w s : Str) : stripLead w s <:+: s := by
  unfold stripLead
  split
  · split
    · exact ⟨[], [], by simp⟩
    · next c rest heq =>
      split
      · refine (subOfSuf (List.dropWhile_suffix jsWhitespace)).trans ?_
        have h1 : rest <:+ c :: rest := ⟨[c], rfl⟩
        have h2 : c :: rest <:+ s := heq ▸ List.drop_suffix _ s
        exact subOfSuf (h1.trans h2)
      · exact ⟨[], [], by simp⟩
  · exact ⟨[], [], by simp⟩

theorem subReplaceWord {w : Str} (hw : ∀ c ∈ w, jsWhitespace c = false)
    {w' t : Str} (h : w <:+: replaceWordOnce w' t) : w <:+: t := by
  unfold replaceWordOnce at h
  rcases hf : findSub w' t with _ | i
  · simpa [hf] using h
  · rw [hf] at h
    rcases sandwich hw (by decide) _ h with h1 | h1
    · exact (h1.trans (subDropTrail _)).trans (subTake _ _)
    · exact (h1.trans (subDropLead _)).trans (subDrop _ _)

/-- Claim C5, amended: the `house`/`wild` rules are substring replaces (see
the counterexample), but word preservation holds: every nonempty
whitespace-free chunk of a normalized name — in particular every word other
than `house` and `wild` — still occurs intact, case-insensitively, in the
input name. -/
theorem claim_C5_amended (s w : Str) (_hne : w ≠ [])
    (hw : ∀ c ∈ w, jsWhitespace c = false)
    (_hhouse : w ≠ "house".toList) (_hwild : w ≠ "wild".toList)
    (hsub : w <:+: normalizeZooName s) :
    w <:+: s.map Char.toLower := by
  rw [normalizeZooName_def] at hsub
  have h1 : w <:+: collapseWs (stripLead "zsl".toList (stripLead "the".toList
      (replaceWordOnce "wild".toList (replaceWordOnce "house".toList
        (stripSeaLife (stripEnd1 "aquarium".toList
          (stripEnd2 "animal".toList "park".toList
            (stripEnd2 "wildlife".toList "park".toList
              (stripEnd2 "safari".toList "park".toList
                (stripEnd1 "zoo".toList
                  (collapseWs (unifyQuotes (s.map Char.toLower))))))))))))) :=
    hsub.trans (subTrim _)
  have h2 := @subCollapse _ hw _ false h1
  have h3 := h2.trans (subStripLead _ _)
  have h4 := h3.trans (subStripLead _ _)
  have h5 := subReplaceWord hw h4
  have h6 := subReplaceWord hw h5
  have h7 := h6.trans (subStripSeaLife _)
  have h8 := h7.trans (subStripEnd1 _ _)
  have h9 := h8.trans (subStripEnd2 _ _ _)
  have h10 := h9.trans (subStripEnd2 _ _ _)
  have h11 := h10.trans (subStripEnd2 _ _ _)
  have h12 := h11.trans (subStripEnd1 _ _)
  have h13 := @subCollapse _ hw _ false h12
  rwa [unifyQuotes_id] at h13

/-- Witness for the amended claim C5: the word `chester` of the normalized
`Chester Zoo` occurs intact in the lower-cased input. -/
theorem claim_C5_amended_witness :
    "chester".toList ≠ ([] : Str) ∧
    "chester".toList <:+: ("Chester Zoo".toList : Str).map Char.toLower :=
  ⟨by decide, claim_C5_amended "Chester Zoo".toList "chester".toList (by decide)
    (by decide) (by decide) (by decide) (by decide)⟩

/-! ### The ranker -/

/-- Claim C8, counterexample: the third criterion is not plain
case-insensitive alphabetical order with stability.  The two entities named
`B` and `b` tie on every claimed criterion (equal source counts, equal
website truthiness, case-insensitively equal names), so the claim predicts
the input order `[B, b]` is kept; the comparator's `localeCompare` orders
lowercase first and the code returns `[b, B]`. -/
theorem claim_C8_counterexample :
    zooUpperB.name.map Char.toLower = zooLowerB.name.map Char.toLower ∧
    zooUpperB.sources.length = zooLowerB.sources.length ∧
    strTruthy zooUpperB.website = strTruthy zooLowerB.website ∧
    zooUpperB ≠ zooLowerB ∧
    sortZoosByQuality [zooUpperB, zooLowerB] = [zooLowerB, zooUpperB] := by
  refine ⟨by decide, by decide, by decide, by decide, ?_⟩
  have h1 : zooLe zooUpperB zooLowerB = false := by decide
  simp [sortZoosByQuality, List.mergeSort, List.merge, h1]

theorem lexCmp_self [LinearOrder α] : ∀ a : List α, lexCmp a a = Ordering.eq := by
  intro a
  induction a with
  | nil => rfl
  | cons c cs ih =>
    have h : compare c c = Ordering.eq := compare_eq_iff_eq.mpr rfl
    simp [lexCmp, h, ih]

theorem lexCmp_eq_iff [LinearOrder α] :
    ∀ a b : List α, lexCmp a b = Ordering.eq ↔ a = b := by
  intro a
  induction a with
  | nil =>
    intro b
    cases b <;> simp [lexCmp]
  | cons c cs ih =>
    intro b
    cases b with
    | nil => simp [lexCmp]
    | cons d ds =>
      rcases h : compare c d with _ | _ | _
      · simp only [lexCmp, h]
        have : c ≠ d := ne_of_lt (compare_lt_iff_lt.mp h)
        simp [this]
      · have hcd : c = d := compare_eq_iff_eq.mp h
        subst hcd
        simp only [lexCmp, h]
        simp [ih ds]
      · simp only [lexCmp, h]
        have : c ≠ d := ne_of_gt (compare_gt_iff_gt.mp h)
        simp [this]

theorem lexCmp_swap [LinearOrder α] :
    ∀ a b : List α, (lexCmp a b).swap = lexCmp b a := by
  intro a
  induction a with
  | nil => intro b; cases b <;> rfl
  | cons c cs ih =>
    intro b
    cases b with
    | nil => rfl
    | cons d ds =>
      rcases h : compare c d with _ | _ | _
      · have h' : compare d c = Ordering.gt :=
          compare_gt_iff_gt.mpr (compare_lt_iff_lt.mp h)
        simp [lexCmp, h, h', Ordering.swap]
      · have hcd : c = d := compare_eq_iff_eq.mp h
        subst hcd
        simp [lexCmp, h, ih ds]
      · have h' : compare d c = Ordering.lt :=
          compare_lt_iff_lt.mpr (compare_gt_iff_gt.mp h)
        simp [lexCmp, h, h', Ordering.swap]

theorem lexCmp_lt_trans [LinearOrder α] :
    ∀ a b c : List α, lexCmp a b = Ordering.lt → lexCmp b c = Ordering.lt →
      lexCmp a c = Ordering.lt := by
  intro a
  induction a with
  | nil =>
    intro b c hab hbc
    cases b with
    | nil => exact hbc
    | cons y b' =>
      cases c with
      | nil => simp [lexCmp] at hbc
      | cons z c' => rfl
  | cons x a' ih =>
    intro b c hab hbc
    cases b with
    | nil => simp [lexCmp] at hab
    | cons y b' =>
      cases c with
      | nil => simp [lexCmp] at hbc
      | cons z c' =>
        rcases hxy : compare x y with _ | _ | _
        · rcases hyz : compare y z with _ | _ | _
          · have hxz : x < z := lt_trans (compare_lt_iff_lt.mp hxy)
              (compare_lt_iff_lt.mp hyz)
            simp [lexCmp, compare_lt_iff_lt.mpr hxz]
          · have hyzeq : y = z := compare_eq_iff_eq.mp hyz
            subst hyzeq
            simp [lexCmp, hxy]
          · simp only [lexCmp, hyz] at hbc
            exact Ordering.noConfusion hbc
        · have hxyeq : x = y := compare_eq_iff_eq.mp hxy
          subst hxyeq
          simp only [lexCmp, hxy] at hab
          rcases hyz : compare x z with _ | _ | _
          · simp [lexCmp, hyz]
          · simp only [lexCmp, hyz] at hbc ⊢
            exact ih b' c' hab hbc
          · simp only [lexCmp, hyz] at hbc
            exact Ordering.noConfusion hbc
        · simp only [lexCmp, hxy] at hab
          exact Ordering.noConfusion hab

theorem lexCmp_isLE_trans [LinearOrder α] {a b c : List α}
    (hab : (lexCmp a b).isLE = true) (hbc : (lexCmp b c).isLE = true) :
    (lexCmp a c).isLE = true := by
  rcases h1 : lexCmp a b with _ | _ | _
  · rcases h2 : lexCmp b c with _ | _ | _
    · rw [lexCmp_lt_trans a b c h1 h2]; rfl
    · rw [(lexCmp_eq_iff b c).mp h2] at h1
      rw [h1]; rfl
    · rw [h2] at hbc; exact absurd hbc (by simp [Ordering.isLE])
  · rw [(lexCmp_eq_iff a b).mp h1]
    exact hbc
  · rw [h1] at hab; exact absurd hab (by simp [Ordering.isLE])

theorem lexCmp_isLE_total [LinearOrder α] (a b : List α) :
    (lexCmp a b).isLE = true ∨ (lexCmp b a).isLE = true := by
  rcases h : lexCmp a b with _ | _ | _
  · exact Or.inl rfl
  · exact Or.inl rfl
  · right
    have := lexCmp_swap a b
    rw [h] at this
    rw [← this]
    rfl

theorem localeCompare_le_iff (a b : Str) :
    localeCompare a b ≤ 0 ↔
      (lexCmp (a.map Char.toLower) (b.map Char.toLower) = Ordering.lt ∨
        (a.map Char.toLower = b.map Char.toLower ∧
          (lexCmp (a.map caseRank) (b.map caseRank)).isLE = true)) := by
  unfold localeCompare
  rcases h1 : lexCmp (a.map Char.toLower) (b.map Char.toLower) with _ | _ | _
  · simp only [h1]
    constructor
    · intro _; exact Or.inl trivial
    · intro _; decide
  · simp only [h1]
    rcases h2 : lexCmp (a.map caseRank) (b.map caseRank) with _ | _ | _ <;>
      simp only [h2]
    · constructor
      · intro _; exact Or.inr ⟨(lexCmp_eq_iff _ _).mp h1, rfl⟩
      · intro _; decide
    · constructor
      · intro _; exact Or.inr ⟨(lexCmp_eq_iff _ _).mp h1, rfl⟩
      · intro _; decide
    · constructor
      · intro h; exact absurd h (by decide)
      · rintro (h | ⟨-, h⟩)
        · exact Ordering.noConfusion h
        · exact Bool.noConfusion h
  · simp only [h1]
    constructor
    · intro h; exact absurd h (by decide)
    · rintro (h | ⟨h, -⟩)
      · exact Ordering.noConfusion h
      · have h2 := (lexCmp_eq_iff _ _).mpr h
        rw [h1] at h2
        exact Ordering.noConfusion h2

theorem localeCompare_le_trans {a b c : Str} (hab : localeCompare a b ≤ 0)
    (hbc : localeCompare b c ≤ 0) : localeCompare a c ≤ 0 := by
  rw [localeCompare_le_iff] at hab hbc ⊢
  rcases hab with h1 | ⟨h1, h1w⟩
  · rcases hbc with h2 | ⟨h2, h2w⟩
    · exact Or.inl (lexCmp_lt_trans _ _ _ h1 h2)
    · rw [← h2]
      exact Or.inl h1
  · rcases hbc with h2 | ⟨h2, h2w⟩
    · rw [h1]
      exact Or.inl h2
    · exact Or.inr ⟨h1.trans h2, lexCmp_isLE_trans h1w h2w⟩

theorem localeCompare_le_total (a b : Str) :
    localeCompare a b ≤ 0 ∨ localeCompare b a ≤ 0 := by
  rw [localeCompare_le_iff, localeCompare_le_iff]
  rcases h : lexCmp (a.map Char.toLower) (b.map Char.toLower) with _ | _ | _
  · exact Or.inl (Or.inl rfl)
  · have he : a.map Char.toLower = b.map Char.toLower := (lexCmp_eq_iff _ _).mp h
    rcases lexCmp_isLE_total (a.map caseRank) (b.map caseRank) with h2 | h2
    · exact Or.inl (Or.inr ⟨he, h2⟩)
    · exact Or.inr (Or.inr ⟨he.symm, h2⟩)
  · have hs := lexCmp_swap (a.map Char.toLower) (b.map Char.toLower)
    rw [h] at hs
    exact Or.inr (Or.inl hs.symm)

theorem localeCompare_eq_zero_iff (a b : Str) :
    localeCompare a b = 0 ↔
      (a.map Char.toLower = b.map Char.toLower ∧
        a.map caseRank = b.map caseRank) := by
  unfold localeCompare
  rcases h1 : lexCmp (a.map Char.toLower) (b.map Char.toLower) with _ | _ | _
  · simp only [h1]
    constructor
    · intro h; exact absurd h (by decide)
    · rintro ⟨h, -⟩
      have h2 := (lexCmp_eq_iff _ _).mpr h
      rw [h1] at h2
      exact Ordering.noConfusion h2
  · simp only [h1]
    rcases h2 : lexCmp (a.map caseRank) (b.map caseRank) with _ | _ | _ <;>
      simp only [h2]
    · constructor
      · intro h; exact absurd h (by decide)
      · rintro ⟨-, h⟩
        have h3 := (lexCmp_eq_iff _ _).mpr h
        rw [h2] at h3
        exact Ordering.noConfusion h3
    · constructor
      · intro _
        exact ⟨(lexCmp_eq_iff _ _).mp h1, (lexCmp_eq_iff _ _).mp h2⟩
      · intro _; trivial
    · constructor
      · intro h; exact absurd h (by decide)
      · rintro ⟨-, h⟩
        have h3 := (lexCmp_eq_iff _ _).mpr h
        rw [h2] at h3
        exact Ordering.noConfusion h3
  · simp only [h1]
    constructor
    · intro h; exact absurd h (by decide)
    · rintro ⟨h, -⟩
      have h2 := (lexCmp_eq_iff _ _).mpr h
      rw [h1] at h2
      exact Ordering.noConfusion h2

theorem cmpZoo_zero_iff (a b : Zoo) :
    cmpZoo a b = 0 ↔
      (a.sources.length = b.sources.length ∧
        strTruthy a.website = strTruthy b.website ∧
        localeCompare a.name b.name = 0) := by
  unfold cmpZoo
  split_ifs with h1 h2 h3
  · constructor
    · intro h; exfalso; omega
    · rintro ⟨h, -, -⟩; exfalso; omega
  · rw [Bool.and_eq_true, Bool.not_eq_true'] at h2
    constructor
    · intro h; exact absurd h (by decide)
    · rintro ⟨-, h, -⟩
      rw [h2.1, h2.2] at h
      exact Bool.noConfusion h
  · rw [Bool.and_eq_true, Bool.not_eq_true'] at h3
    constructor
    · intro h; exact absurd h (by decide)
    · rintro ⟨-, h, -⟩
      rw [h3.1, h3.2] at h
      exact Bool.noConfusion h
  · have hlen : a.sources.length = b.sources.length := by omega
    have htr : strTruthy a.website = strTruthy b.website := by
      rcases hA : strTruthy a.website <;> rcases hB : strTruthy b.website
      · rfl
      · exact absurd (by rw [hA, hB]; rfl) h3
      · exact absurd (by rw [hA, hB]; rfl) h2
      · rfl
    simp [hlen, htr]

theorem zooLe_iff_spec (a b : Zoo) : zooLe a b = true ↔ specZooOrder a b := by
  unfold zooLe specZooOrder
  simp only [decide_eq_true_eq]
  unfold cmpZoo
  split_ifs with h1 h2 h3
  · constructor
    · intro h
      exact Or.inl (by omega)
    · rintro (h | ⟨h, -⟩)
      · omega
      · exfalso; omega
  · rw [Bool.and_eq_true, Bool.not_eq_true'] at h2
    constructor
    · intro _
      exact Or.inr ⟨by omega, Or.inl ⟨h2.1, h2.2⟩⟩
    · intro _; decide
  · rw [Bool.and_eq_true, Bool.not_eq_true'] at h3
    constructor
    · intro h; exact absurd h (by decide)
    · rintro (h | ⟨-, ⟨hA, hB⟩ | ⟨hAB, -⟩⟩)
      · exfalso; omega
      · rw [h3.1] at hA
        exact Bool.noConfusion hA
      · rw [h3.1, h3.2] at hAB
        exact Bool.noConfusion hAB
  · have htr : strTruthy a.website = strTruthy b.website := by
      rcases hA : strTruthy a.website <;> rcases hB : strTruthy b.website
      · rfl
      · exact absurd (by rw [hA, hB]; rfl) h3
      · exact absurd (by rw [hA, hB]; rfl) h2
      · rfl
    constructor
    · intro h
      exact Or.inr ⟨by omega, Or.inr ⟨htr, h⟩⟩
    · rintro (h | ⟨-, ⟨hA, hB⟩ | ⟨-, hloc⟩⟩)
      · exfalso; omega
      · rw [hA, hB] at htr
        exact Bool.noConfusion htr
      · exact hloc

theorem specZooOrder_trans {a b c : Zoo} (hab : specZooOrder a b)
    (hbc : specZooOrder b c) : specZooOrder a c := by
  rcases hab with h1 | ⟨h1, h1w⟩
  · rcases hbc with h2 | ⟨h2, h2w⟩
    · exact Or.inl (by omega)
    · exact Or.inl (by omega)
  · rcases hbc with h2 | ⟨h2, h2w⟩
    · exact Or.inl (by omega)
    · refine Or.inr ⟨h1.trans h2, ?_⟩
      rcases h1w with ⟨hA, hB⟩ | ⟨hAB, hloc⟩
      · rcases h2w with ⟨hBt, hC⟩ | ⟨hBC, hloc2⟩
        · rw [hB] at hBt
          exact Bool.noConfusion hBt
        · exact Or.inl ⟨hA, by rw [← hBC]; exact hB⟩
      · rcases h2w with ⟨hBt, hC⟩ | ⟨hBC, hloc2⟩
        · exact Or.inl ⟨hAB.trans hBt, hC⟩
        · exact Or.inr ⟨hAB.trans hBC, localeCompare_le_trans hloc hloc2⟩

theorem specZooOrder_total (a b : Zoo) : specZooOrder a b ∨ specZooOrder b a := by
  rcases Nat.lt_trichotomy a.sources.length b.sources.length with h | h | h
  · exact Or.inr (Or.inl h)
  · rcases hA : strTruthy a.website <;> rcases hB : strTruthy b.website
    · rcases localeCompare_le_total a.name b.name with hl | hl
      · exact Or.inl (Or.inr ⟨h, Or.inr ⟨by rw [hA, hB], hl⟩⟩)
      · exact Or.inr (Or.inr ⟨h.symm, Or.inr ⟨by rw [hA, hB], hl⟩⟩)
    · exact Or.inr (Or.inr ⟨h.symm, Or.inl ⟨hB, hA⟩⟩)
    · exact Or.inl (Or.inr ⟨h, Or.inl ⟨hA, hB⟩⟩)
    · rcases localeCompare_le_total a.name b.name with hl | hl
      · exact Or.inl (Or.inr ⟨h, Or.inr ⟨by rw [hA, hB], hl⟩⟩)
      · exact Or.inr (Or.inr ⟨h.symm, Or.inr ⟨by rw [hA, hB], hl⟩⟩)
  · exact Or.inl (Or.inl h)

theorem zooLe_trans (a b c : Zoo) (hab : zooLe a b = true)
    (hbc : zooLe b c = true) : zooLe a c = true :=
  (zooLe_iff_spec a c).mpr
    (specZooOrder_trans ((zooLe_iff_spec a b).mp hab) ((zooLe_iff_spec b c).mp hbc))

theorem zooLe_total (a b : Zoo) : (zooLe a b || zooLe b a) = true := by
  rcases specZooOrder_total a b with h | h
  · rw [(zooLe_iff_spec a b).mpr h]
    rfl
  · rw [(zooLe_iff_spec b a).mpr h, Bool.or_true]

theorem zooRankEq_le {z a b : Zoo} (ha : zooRankEq z a = true)
    (hb : zooRankEq z b = true) : zooLe a b = true := by
  unfold zooRankEq at ha hb
  rw [beq_iff_eq] at ha hb
  rw [cmpZoo_zero_iff, localeCompare_eq_zero_iff] at ha hb
  obtain ⟨hl1, ht1, hn1, hc1⟩ := ha
  obtain ⟨hl2, ht2, hn2, hc2⟩ := hb
  have hab : cmpZoo a b = 0 := by
    rw [cmpZoo_zero_iff, localeCompare_eq_zero_iff]
    exact ⟨hl1.symm.trans hl2, ht1.symm.trans ht2,
      hn1.symm.trans hn2, hc1.symm.trans hc2⟩
  unfold zooLe
  rw [hab]
  rfl

/-- Claim C8, amended: `sortZoosByQuality` returns a permutation of its input
that is sorted by the comparator order (more sources first, then truthy
website first, then names in the modelled default-locale order), and the sort
is stable: entities tying on all three criteria keep their input order, read
off as the filter to any comparator-equivalence class being preserved.  The
third criterion is the locale order, lowercase-first on case-insensitive
ties, not the claimed case-insensitive order with input-order ties (see the
counterexample). -/
theorem claim_C8_amended (l : List Zoo) :
    (sortZoosByQuality l).Perm l ∧
    List.Pairwise specZooOrder (sortZoosByQuality l) ∧
    ∀ z : Zoo,
      (sortZoosByQuality l).filter (zooRankEq z) = l.filter (zooRankEq z) := by
  unfold sortZoosByQuality
  refine ⟨List.mergeSort_perm l zooLe, ?_, ?_⟩
  · exact (List.sorted_mergeSort zooLe_trans zooLe_total l).imp
      (fun h => (zooLe_iff_spec _ _).mp h)
  · intro z
    have hsub : (l.filter (zooRankEq z)).Sublist l := List.filter_sublist l
    have hpw : List.Pairwise (fun a b => zooLe a b = true)
        (l.filter (zooRankEq z)) := by
      refine List.pairwise_of_forall_mem_list ?_
      intro a ha b hb
      rw [List.mem_filter] at ha hb
      exact zooRankEq_le ha.2 hb.2
    have hstab := List.sublist_mergeSort zooLe_trans zooLe_total hpw hsub
    have hfil := hstab.filter (zooRankEq z)
    rw [List.filter_eq_self.mpr (fun a ha => (List.mem_filter.mp ha).2)] at hfil
    have hperm := (List.mergeSort_perm l zooLe).filter (zooRankEq z)
    exact (hfil.eq_of_length hperm.length_eq.symm).symm


end ZooDedupe
